import Mathlib

/-!
Verification of the Pluggy search/retrieval engine against its specification.
The Python source is shallowly embedded: pure fragments become Lean functions
over `List Char` / `Int` / `Rat`; Python floats are modelled by exact rationals
(all concrete values used below are exactly representable in binary floating
point, so the models agree with CPython on them); Python exceptions become
`Option` (`none` = raised).
-/

namespace Pluggy

/-- ASCII whitespace as recognised by Python `str.strip` / `\s`. -/
def isPySpace (c : Char) : Bool :=
  c = ' ' || c = '\t' || c = '\n' || c = '\r' || c = '\x0b' || c = '\x0c'

/-- Python `str.strip()` on a char list. -/
def pyStripL (l : List Char) : List Char :=
  ((l.dropWhile isPySpace).reverse.dropWhile isPySpace).reverse

/-- ASCII `str.lower()` on one char. -/
def charLower (c : Char) : Char :=
  if 'A' ≤ c ∧ c ≤ 'Z' then Char.ofNat (c.toNat + 32) else c

/-- ASCII `str.upper()` on one char. -/
def charUpper (c : Char) : Char :=
  if 'a' ≤ c ∧ c ≤ 'z' then Char.ofNat (c.toNat - 32) else c

def pyLowerL (l : List Char) : List Char := l.map charLower

def pyUpperL (l : List Char) : List Char := l.map charUpper

/-- Python `s.strip().lower()` on a `String`. -/
def pyStripLower (s : String) : String := ⟨pyLowerL (pyStripL s.data)⟩

/-- Python `s.strip().upper()` on a `String`. -/
def pyStripUpper (s : String) : String := ⟨pyUpperL (pyStripL s.data)⟩

def pyLower (s : String) : String := ⟨pyLowerL s.data⟩

/-- ASCII decimal digit. -/
def isDigitB (c : Char) : Bool := '0' ≤ c ∧ c ≤ '9'

/-- Python word character (`\w` over ASCII): letter, digit or underscore. -/
def isWordChar (c : Char) : Bool :=
  ('a' ≤ c ∧ c ≤ 'z') || ('A' ≤ c ∧ c ≤ 'Z') || isDigitB c || c = '_'

/-- Python `str.split()` (split on whitespace runs, no empty fields). -/
def pySplitWs (l : List Char) : List (List Char) :=
  (l.splitOnP isPySpace).filter (fun w => !w.isEmpty)

/-- Python's `needle in hay` substring test. -/
def listInfixOf (needle : List Char) : List Char → Bool
  | [] => needle.isEmpty
  | c :: cs => needle.isPrefixOf (c :: cs) || listInfixOf needle cs

/-! ## Data model: `SearchResult` and link candidates
(`pluggy/models/search_result.py`, `pluggy/core/source_manager.py`). -/

/-- One entry of `SearchResult.link_candidates`: the dict
`{"url", "source", "quality", "seeds", "leeches", "size"}` built in
`SourceManager._ensure_link_candidate`. -/
structure LinkCandidate where
  url : String
  src : String
  quality : Int
  seeds : Int
  leeches : Int
  size : Int
deriving DecidableEq, Repr

/-- The `SearchResult` dataclass (fields the claims touch). -/
structure SearchResult where
  title : String
  magnet : String
  size : Int
  seeds : Int
  leeches : Int
  source : String
  infohash : String
  linkCandidates : List LinkCandidate := []
  aggregatedSources : List String := []
  linkQuality : Int := 0
deriving DecidableEq, Repr

/-! ## Size parsing and formatting (`SearchResult.normalize_size` /
`SearchResult.format_size`).

Python floats are modelled exactly: every value that appears in these two
functions is a decimal fraction (`num / 10^e`) or a binary fraction
(`n / 1024^k`), so it is represented by an explicit numerator/denominator
pair of integers.  On such values the models agree with CPython, whose
binary doubles represent the inputs the claims use exactly. -/

/-- `round(num/den)` for `den > 0`, ties to even — how CPython renders
`f"{x:.2f}"` for an exactly-represented `x`. -/
def roundHalfEvenFrac (num den : ℤ) : ℤ :=
  let f := num.fdiv den
  let r := num - f * den
  if 2 * r < den then f
  else if den < 2 * r then f + 1
  else if Even f then f else f + 1

/-- Two-digit zero-padded decimal fraction. -/
def twoDigits (n : ℤ) : String :=
  let k := n.toNat % 100
  if k < 10 then "0" ++ toString k else toString k

/-- Python `f"{x:.2f}"` for the non-negative fraction `x = num/den`, `den > 0`. -/
def fmt2Frac (num den : ℤ) : String :=
  let m := roundHalfEvenFrac (100 * num) den
  toString (m / 100) ++ "." ++ twoDigits (m % 100)

/-- Loop body of `SearchResult.format_size`: repeatedly divide by 1024 while
`≥ 1024`, walking `B, KB, MB, GB, TB`, falling through to `PB`.  The running
float `n / 1024^k` is carried as the pair `(n, k)`; the test
`n / 1024^k < 1024` is the integer test `n < 1024^(k+1)`. -/
def formatSizeGo (n : ℤ) (k : ℕ) : List String → String
  | [] => fmt2Frac n ((1024 : ℤ) ^ k) ++ " PB"
  | u :: us =>
    if n < (1024 : ℤ) ^ (k + 1) then fmt2Frac n ((1024 : ℤ) ^ k) ++ " " ++ u
    else formatSizeGo n (k + 1) us

/-- `SearchResult.format_size`. -/
def formatSize (n : ℤ) : String :=
  formatSizeGo n 0 ["B", "KB", "MB", "GB", "TB"]

/-- Python `float(s)` for a string of digits and dots (the only shape the
`normalize_size` regex lets through): valid iff at most one dot and at least
one digit; the value `v` is returned as `(num, e)` with `v = num / 10^e`.
`none` models the `ValueError` CPython raises otherwise. -/
def decToScaled (ds : List Char) : Option (ℤ × ℕ) :=
  if (ds.count '.') ≤ 1 ∧ ds.any isDigitB then
    let ip := ds.takeWhile (fun c => c ≠ '.')
    let fp := (ds.dropWhile (fun c => c ≠ '.')).drop 1
    let natOf : List Char → ℕ := fun l => l.foldl (fun a c => a * 10 + (c.toNat - 48)) 0
    some (((natOf ip * 10 ^ fp.length + natOf fp : ℕ) : ℤ), fp.length)
  else none

/-- The unit part `[KMGT]I?B` of the `normalize_size` regex, matched as a
prefix of the remaining input (trailing characters are ignored, as with
`re.match`). -/
def parseSizeUnit : List Char → Option String
  | c :: rest =>
    if c = 'K' ∨ c = 'M' ∨ c = 'G' ∨ c = 'T' then
      match rest with
      | 'I' :: 'B' :: _ => some ⟨[c, 'I', 'B']⟩
      | 'B' :: _ => some ⟨[c, 'B']⟩
      | _ => none
    else none
  | [] => none

/-- The `multipliers` dict of `normalize_size`, with `dict.get`'s default 1. -/
def sizeMultiplier (unit : String) : ℤ :=
  (([("B", 1), ("KB", 1000), ("KIB", 1024),
     ("MB", 1000 ^ 2), ("MIB", 1024 ^ 2),
     ("GB", 1000 ^ 3), ("GIB", 1024 ^ 3),
     ("TB", 1000 ^ 4), ("TIB", 1024 ^ 4)] :
    List (String × ℤ)).lookup unit).getD 1

/-- `normalize_size` takes "int or str" (dynamically typed). -/
inductive SizeInput where
  | int (n : ℤ)
  | str (s : String)

/-- `SearchResult.normalize_size`.  `none` models a raised `ValueError`
(a regex-matched numeric part that `float()` rejects, e.g. two dots). -/
def normalizeSize : SizeInput → Option ℤ
  | .int n => some n
  | .str s =>
    let u := (pyStripUpper s).data
    let ds := u.takeWhile (fun c => isDigitB c || c = '.')
    if ds.isEmpty then some 0
    else
      let rest := (u.drop ds.length).dropWhile isPySpace
      match parseSizeUnit rest with
      | none => some 0
      | some unit =>
        match decToScaled ds with
        | none => none
        | some (num, e) =>
          -- `int(value * multiplier)`: the value is `num / 10^e ≥ 0`, so
          -- truncation toward zero is integer division.
          some (num * sizeMultiplier unit / (10 : ℤ) ^ e)

/-! ## `SearchResult.__eq__` / `__hash__` (identity is the infohash). -/

/-- `SearchResult.__eq__` against another `SearchResult` (the non-`SearchResult`
branch returns `False` and is outside this model's scope). -/
def searchResultEq (a b : SearchResult) : Bool := a.infohash == b.infohash

/-- Python's opaque `hash(str)`, modelled by a concrete deterministic string
hash; the claims need only that it is a function of the string. -/
def pyHashStr (s : String) : ℕ :=
  s.data.foldl (fun a c => a * 31 + c.toNat) 7

/-- `SearchResult.__hash__`: `hash(self.infohash)`. -/
def searchResultHash (a : SearchResult) : ℕ := pyHashStr a.infohash

/-! ## Deduplication (`SourceManager._deduplicate`).

Python dicts preserve insertion order and keep a key's position on value
update, so `seen_hash` / `seen_nonhash` are modelled by association lists:
inserting a fresh key appends, updating an existing key rewrites in place. -/

/-- In-place value update of an association list (no-op if the key is absent). -/
def alistSet (k : String) (v : α) : List (String × α) → List (String × α)
  | [] => []
  | (k', v') :: rest =>
    if k' = k then (k', v) :: rest else (k', v') :: alistSet k v rest

/-- The non-torrent identity key: `(magnet or "").strip().lower()`, falling
back to `(title or "").strip().lower()`. -/
def nonHashKey (r : SearchResult) : String :=
  let key := pyStripLower r.magnet
  if key = "" then pyStripLower r.title else key

/-- The loop of `_deduplicate` over the two insertion-ordered maps. -/
def dedupLoop :
    List SearchResult → List (String × SearchResult) →
    List (String × SearchResult) →
    List (String × SearchResult) × List (String × SearchResult)
  | [], seenHash, seenNonhash => (seenHash, seenNonhash)
  | r :: rest, seenHash, seenNonhash =>
    if r.infohash = "" then
      let key := nonHashKey r
      if key = "" then dedupLoop rest seenHash seenNonhash
      else if (seenNonhash.lookup key).isSome then dedupLoop rest seenHash seenNonhash
      else dedupLoop rest seenHash (seenNonhash ++ [(key, r)])
    else
      match seenHash.lookup r.infohash with
      | none => dedupLoop rest (seenHash ++ [(r.infohash, r)]) seenNonhash
      | some prev =>
        if prev.seeds < r.seeds then
          dedupLoop rest (alistSet r.infohash r seenHash) seenNonhash
        else dedupLoop rest seenHash seenNonhash

/-- `SourceManager._deduplicate`. -/
def deduplicate (results : List SearchResult) : List SearchResult :=
  let (seenHash, seenNonhash) := dedupLoop results [] []
  seenHash.map Prod.snd ++ seenNonhash.map Prod.snd

/-! ## Download-job state machine (`DownloadJob.pause/resume/cancel`,
called by `DownloadManager.pause_download/resume_download/cancel_download`). -/

inductive JobStatus where
  | queued | resolving | downloading | paused | completed | cancelled | error
deriving DecidableEq, Repr

/-- The `DownloadJob` fields the control calls touch: the status and the two
threading events. -/
structure DownloadJob where
  status : JobStatus
  pauseEvent : Bool := false
  cancelEvent : Bool := false
deriving DecidableEq, Repr

/-- `DownloadJob.pause`. -/
def jobPause (j : DownloadJob) : DownloadJob :=
  if j.status = .downloading then { j with pauseEvent := true, status := .paused }
  else j

/-- `DownloadJob.resume`. -/
def jobResume (j : DownloadJob) : DownloadJob :=
  if j.status = .paused then { j with pauseEvent := false, status := .downloading }
  else j

/-- `DownloadJob.cancel` (no status guard in the source). -/
def jobCancel (j : DownloadJob) : DownloadJob :=
  { j with cancelEvent := true, status := .cancelled }

/-! ## Circuit breaker (`SourceHealth`, `SourceManager._source_block_reason`,
`SourceManager._record_source_outcome`).  Wall-clock instants and durations
are exact rationals. -/

structure SourceHealth where
  attempts : ℤ := 0
  successes : ℤ := 0
  failures : ℤ := 0
  consecutiveFailures : ℤ := 0
  lastError : String := ""
  lastLatencyMs : ℚ := 0
  lastAttemptAt : ℚ := 0
  lastSuccessAt : ℚ := 0
  cooldownUntil : ℚ := 0
  circuitOpen : Bool := false
  skippedDueCircuit : ℤ := 0
deriving DecidableEq

/-- `_source_block_reason` for a registered provider: returns the mutated
health record and the block reason (`""` = the call may proceed).  The
cooldown message text is elided to a fixed marker; only its non-emptiness is
observable to the coordinator's skip decision. -/
def sourceBlockReason (now : ℚ) (h : SourceHealth) : SourceHealth × String :=
  if h.circuitOpen ∧ now < h.cooldownUntil then
    ({ h with skippedDueCircuit := h.skippedDueCircuit + 1 },
      "Circuit open after failures; retrying automatically soon.")
  else if h.circuitOpen ∧ h.cooldownUntil ≤ now then
    -- Half-open attempt allowed now.
    ({ h with circuitOpen := false, consecutiveFailures := 0, cooldownUntil := 0 }, "")
  else (h, "")

/-- `_record_source_outcome` (with the manager's `circuit_failure_threshold`
and `circuit_cooldown_seconds` passed explicitly; `now` stands for the two
adjacent `time.time()` reads). -/
def recordSourceOutcome (threshold : ℤ) (cooldownSeconds : ℚ) (now : ℚ)
    (h : SourceHealth) (ok : Bool) (errorMessage : String) (latencyMs : ℚ)
    (attempts : ℤ) : SourceHealth :=
  let h := { h with
    attempts := h.attempts + max 1 attempts
    lastAttemptAt := now
    lastLatencyMs := latencyMs }
  if ok then
    { h with
      successes := h.successes + 1
      consecutiveFailures := 0
      lastError := ""
      lastSuccessAt := now
      circuitOpen := false
      cooldownUntil := 0 }
  else
    let h := { h with
      failures := h.failures + 1
      consecutiveFailures := h.consecutiveFailures + 1
      lastError := errorMessage }
    if threshold ≤ h.consecutiveFailures then
      { h with circuitOpen := true, cooldownUntil := now + cooldownSeconds }
    else h

/-! ## Fast return (`SourceManager.search`, collection loop). -/

/-- The reliability knobs the collection loop reads. -/
structure ReliabilityConfig where
  earlyReturnMinResults : ℤ
  earlyReturnSeconds : ℚ
  preferHttpCompletion : Bool

/-- The fast-return test at the bottom of the collection loop, verbatim from
the source: `pending and len(all_results) >= max(1, early_return_min_results)
and elapsed >= max(0.0, early_return_seconds) and not wait_for_all_sources
and not (prefer_http_completion and (http_pending or od_pending))`. -/
def earlyReturnCond (cfg : ReliabilityConfig) (pendingNames : List String)
    (numResults : ℕ) (elapsed : ℚ) (waitForAllSources : Bool) : Bool :=
  let httpPending := pendingNames.any (fun n => pyLower n == "http")
  let odPending := pendingNames.any (fun n => pyLower n == "opendirectory")
  !pendingNames.isEmpty &&
    decide ((numResults : ℤ) ≥ max 1 cfg.earlyReturnMinResults) &&
    decide (elapsed ≥ max 0 cfg.earlyReturnSeconds) &&
    !waitForAllSources &&
    !(cfg.preferHttpCompletion && (httpPending || odPending))

/-- The fast-return condition as claim C4 states it (no clamping of the two
thresholds): at least `earlyReturnMinResults` results, elapsed at least
`earlyReturnSeconds`, some task pending, `waitForAllSources` unset, and no
pending provider in the prefer-completion list. -/
def earlyReturnCondClaim (cfg : ReliabilityConfig) (pendingNames : List String)
    (numResults : ℕ) (elapsed : ℚ) (waitForAllSources : Bool) : Bool :=
  let preferCompletion : List String :=
    if cfg.preferHttpCompletion then ["http", "opendirectory"] else []
  !pendingNames.isEmpty &&
    decide ((numResults : ℤ) ≥ cfg.earlyReturnMinResults) &&
    decide (elapsed ≥ cfg.earlyReturnSeconds) &&
    !waitForAllSources &&
    !(pendingNames.any (fun n => preferCompletion.contains (pyLower n)))

/-- One observation of the collection loop: the monotonic elapsed time at
this iteration, the provider tasks found complete, and how many results they
contributed. -/
structure PollStep where
  time : ℚ
  completions : List String
  resultsDelta : ℕ

/-- How the collection loop ended. -/
inductive LoopExit where
  | allDone | deadlineHit | fastReturn | exhausted
deriving DecidableEq, Repr

/-- The `while pending:` collection loop of `SourceManager.search`, one
`PollStep` per iteration of the bounded `wait` poll (`exhausted` = the
supplied observation trace ran out while tasks were still pending). -/
def collectLoop (cfg : ReliabilityConfig) (waitForAllSources : Bool)
    (deadline : ℚ) :
    List PollStep → List String → ℕ → LoopExit × List String × ℕ
  | steps, pending, results =>
    if pending.isEmpty then (.allDone, pending, results)
    else
      match steps with
      | [] => (.exhausted, pending, results)
      | st :: rest =>
        if st.time ≥ deadline then (.deadlineHit, pending, results)
        else
          let pending' := pending.filter (fun n => !st.completions.contains n)
          let results' := results + st.resultsDelta
          if earlyReturnCond cfg pending' results' st.time waitForAllSources then
            (.fastReturn, pending', results')
          else collectLoop cfg waitForAllSources deadline rest pending' results'

/-! ## Link quality (`SourceManager._link_quality`), with a small model of
`urllib.parse.urlparse` sufficient for the lowercased links it is fed. -/

/-- URL pieces `_link_quality` reads. -/
structure UrlParts where
  scheme : String
  netloc : String
  path : String
deriving DecidableEq, Repr

/-- `urlparse` scheme splitting: `[a-zA-Z][a-zA-Z0-9+.-]*` before a colon. -/
def splitScheme (l : List Char) : Option (List Char × List Char) :=
  let pre := l.takeWhile (fun c => c ≠ ':')
  if pre.length < l.length ∧ pre ≠ [] ∧
      (pre.head?.elim false Char.isAlpha) ∧
      pre.all (fun c => c.isAlpha || isDigitB c || c = '+' || c = '-' || c = '.')
  then some (pre, l.drop (pre.length + 1))
  else none

/-- `urllib.parse.urlparse`, restricted to the scheme/netloc/path fields. -/
def pyUrlparse (s : String) : UrlParts :=
  let l := s.data
  let (scheme, rest) :=
    match splitScheme l with
    | some (sc, r) => (sc, r)
    | none => ([], l)
  let (netloc, rest2) :=
    if l.length ≥ 2 ∧ rest.take 2 = ['/', '/'] then
      let r := rest.drop 2
      let nl := r.takeWhile (fun c => c ≠ '/' ∧ c ≠ '?' ∧ c ≠ '#')
      (nl, r.drop nl.length)
    else ([], rest)
  let path := rest2.takeWhile (fun c => c ≠ '?' ∧ c ≠ '#')
  ⟨⟨scheme⟩, ⟨netloc⟩, ⟨path⟩⟩

/-- The archive/installer extensions `_link_quality` rewards. -/
def qualityFileExts : List String :=
  [".zip", ".rar", ".7z", ".dmg", ".pkg", ".exe", ".msi", ".iso"]

/-- The `host_weights` table, in dict insertion order (the loop breaks at the
first matching key). -/
def hostWeights : List (String × ℤ) :=
  [("rapidgator", 22), ("nitroflare", 20), ("katfile", 17), ("ddownload", 17),
   ("turbobit", 14), ("uploadgig", 14), ("mega.nz", 24), ("mediafire", 18),
   ("pixeldrain", 16), ("workupload", 12)]

/-- `SourceManager._link_quality`. -/
def linkQuality (r : SearchResult) : ℤ :=
  let link := pyStripLower r.magnet
  if r.infohash ≠ "" ∨ "magnet:".data.isPrefixOf link.data then
    min (max r.seeds 0) 5000 + (min (max r.leeches 0) 500) / 2
  else
    let parsed := pyUrlparse link
    let host := pyLower parsed.netloc
    let path := pyLower parsed.path
    let s1 : ℤ := if parsed.scheme = "https" then 25 else 0
    let s2 : ℤ :=
      if qualityFileExts.any (fun e => e.data.isSuffixOf path.data) then 30 else 0
    let s3 : ℤ :=
      if listInfixOf "/file/".data path.data || listInfixOf "/download/".data path.data
        || listInfixOf "/dl/".data path.data then 20 else 0
    let s4 : ℤ :=
      match hostWeights.find? (fun kw => listInfixOf kw.1.data host.data) with
      | some kw => kw.2
      | none => 0
    -- `min(size // 500_000_000, 15)`: +1 per 500 MB up to +15.
    let s5 : ℤ := if 0 < r.size then min (r.size / 500000000) 15 else 0
    s1 + s2 + s3 + s4 + s5

/-! ## Hand-rolled matchers for the version/title regexes.

The regexes of `_extract_version_key` and `_title_specificity_score` are
simple enough to compile by hand.  `\b` is a transition between a word
character (`[a-zA-Z0-9_]`) and a non-word character or string edge.
A trailing `(\.\d+)*\b` needs one step of backtracking: after the greedy
parse, if the word boundary fails at the end, dropping the last `.digits`
group always restores it (the next character is then a dot). -/

/-- Word boundary against the character left of the match start. -/
def prevNonWord : Option Char → Bool
  | none => true
  | some c => !isWordChar c

/-- Word boundary at the match end, against the rest of the input. -/
def headNonWord (l : List Char) : Bool :=
  match l.head? with
  | none => true
  | some c => !isWordChar c

/-- Greedy parse of `(\.\d+)*`: the list of matched `.digits` groups.
Each step consumes at least one character, so the input length is enough
fuel; the fuel keeps the recursion structural (kernel-reducible). -/
def dotDigitGroupsGo : ℕ → List Char → List (List Char)
  | fuel + 1, '.' :: r =>
    let ds := r.takeWhile isDigitB
    if ds.isEmpty then []
    else ('.' :: ds) :: dotDigitGroupsGo fuel (r.drop ds.length)
  | _, _ => []

def dotDigitGroups (l : List Char) : List (List Char) :=
  dotDigitGroupsGo l.length l

/-- Finish a match `acc(\.\d+){minG,maxG}\b` against `rest`: greedy groups,
then the end word-boundary with the one-group backtracking step. -/
def regexTailMatch (minG : ℕ) (maxG : Option ℕ) (acc rest : List Char) :
    Option (List Char) :=
  let groupsAll := dotDigitGroups rest
  let groups :=
    match maxG with
    | some m => groupsAll.take m
    | none => groupsAll
  if groups.length < minG then none
  else if headNonWord (rest.drop groups.flatten.length) then some (acc ++ groups.flatten)
  else if minG < groups.length then some (acc ++ groups.dropLast.flatten)
  else none

/-- Attempt `\b(20\d{2}(?:\.\d+)*)\b` at the current position. -/
def tryYearVersion (prev : Option Char) : List Char → Option (List Char)
  | '2' :: '0' :: c :: d :: rest =>
    if prevNonWord prev ∧ isDigitB c ∧ isDigitB d then
      regexTailMatch 0 none ['2', '0', c, d] rest
    else none
  | _ => none

/-- Attempt `\bv(\d+(?:\.\d+){0,3})\b` at the current position (the captured
group excludes the `v`). -/
def tryVNumVersion (prev : Option Char) : List Char → Option (List Char)
  | 'v' :: rest =>
    if prevNonWord prev then
      let ds := rest.takeWhile isDigitB
      if ds.isEmpty then none
      else regexTailMatch 0 (some 3) ds (rest.drop ds.length)
    else none
  | _ => none

/-- Attempt `\b(\d+\.\d+(?:\.\d+)*)\b` at the current position. -/
def tryDottedVersion (prev : Option Char) (l : List Char) : Option (List Char) :=
  match l with
  | c :: _ =>
    if prevNonWord prev ∧ isDigitB c then
      let ds := l.takeWhile isDigitB
      regexTailMatch 1 none ds (l.drop ds.length)
    else none
  | [] => none

/-- `re.search`: try the position matcher at every start, leftmost first. -/
def scanFirst (f : Option Char → List Char → Option (List Char)) :
    Option Char → List Char → Option (List Char)
  | _, [] => none
  | prev, c :: cs =>
    match f prev (c :: cs) with
    | some v => some v
    | none => scanFirst f (some c) cs

/-- `SourceManager._extract_version_key`: the three patterns in order, first
pattern with a match anywhere wins. -/
def extractVersionKey (title : List Char) : List Char :=
  match scanFirst tryYearVersion none title with
  | some v => v
  | none =>
    match scanFirst tryVNumVersion none title with
    | some v => v
    | none =>
      match scanFirst tryDottedVersion none title with
      | some v => v
      | none => []

/-- Existence of a `\b20\d{2}\b` match (for `_title_specificity_score`). -/
def tryYearPlain (prev : Option Char) : List Char → Option (List Char)
  | '2' :: '0' :: c :: d :: rest =>
    if prevNonWord prev ∧ isDigitB c ∧ isDigitB d ∧ headNonWord rest then
      some ['2', '0', c, d]
    else none
  | _ => none

/-- Existence of a `\bv\d+(\.\d+)*\b` match: after the maximal digit run a
match exists iff the next character is a word boundary (a following `.digits`
group always leaves a dot, hence a boundary, after the run). -/
def tryVMarker (prev : Option Char) : List Char → Option (List Char)
  | 'v' :: rest =>
    if prevNonWord prev then
      let ds := rest.takeWhile isDigitB
      if ds.isEmpty then none
      else if headNonWord (rest.drop ds.length) then some ('v' :: ds)
      else none
    else none
  | _ => none

/-- `SourceManager._title_specificity_score`. -/
def titleSpecificityScore (title : String) : ℤ :=
  let t := pyLowerL title.data
  (t.length : ℤ)
    + (if (scanFirst tryYearPlain none t).isSome then 30 else 0)
    + (if (scanFirst tryVMarker none t).isSome then 20 else 0)

/-! ## Content key (`SourceManager._content_key`). -/

/-- One `re.sub(r"\[[^\]]+\]|\([^)]+\)", " ", title)` pass: every bracketed
or parenthesised block (non-empty, non-nested) becomes one space. -/
def stripBracketBlocksGo : ℕ → List Char → List Char
  | _, [] => []
  | 0, l => l
  | fuel + 1, c :: cs =>
    if c = '[' then
      let body := cs.takeWhile (fun x => x ≠ ']')
      if ¬ body.isEmpty ∧ (cs.drop body.length).head? = some ']' then
        ' ' :: stripBracketBlocksGo fuel (cs.drop (body.length + 1))
      else c :: stripBracketBlocksGo fuel cs
    else if c = '(' then
      let body := cs.takeWhile (fun x => x ≠ ')')
      if ¬ body.isEmpty ∧ (cs.drop body.length).head? = some ')' then
        ' ' :: stripBracketBlocksGo fuel (cs.drop (body.length + 1))
      else c :: stripBracketBlocksGo fuel cs
    else c :: stripBracketBlocksGo fuel cs

def stripBracketBlocks (l : List Char) : List Char :=
  stripBracketBlocksGo l.length l

/-- Characters `_content_key` keeps: `[a-z0-9.+]`. -/
def isKeyChar (c : Char) : Bool :=
  ('a' ≤ c ∧ c ≤ 'z') || isDigitB c || c = '.' || c = '+'

/-- `re.sub(r"[^a-z0-9.+]+", " ", title)`: collapse every run of other
characters to a single space. -/
def collapseNonKeyGo : ℕ → List Char → List Char
  | _, [] => []
  | 0, l => l
  | fuel + 1, c :: cs =>
    if isKeyChar c then c :: collapseNonKeyGo fuel cs
    else ' ' :: collapseNonKeyGo fuel (cs.dropWhile (fun x => !isKeyChar x))

def collapseNonKey (l : List Char) : List Char :=
  collapseNonKeyGo l.length l

/-- The token stop list of `_content_key`. -/
def contentStopWords : List String :=
  ["x64", "x86", "win", "windows", "mac", "linux", "multilingual", "incl",
   "keygen", "crack", "repack", "proper", "portable", "final", "build",
   "adobe", "microsoft", "corel", "apple"]

/-- `SourceManager._content_key`: `"<stem>|<version>"`, or `""` (passthrough). -/
def contentKey (r : SearchResult) : String :=
  let title := pyLowerL r.title.data
  let title := stripBracketBlocks title
  let title := pyStripL (collapseNonKey title)
  if title.isEmpty then ""
  else
    let version := extractVersionKey title
    let tokens := (pySplitWs title).filter (fun t => !t.all isDigitB)
    let core := tokens.filter (fun t => !contentStopWords.contains ⟨t⟩)
    let core := if core.isEmpty then tokens else core
    let stem := pyStripL (List.intercalate [' '] (core.take 6))
    if stem.isEmpty then ""
    else ⟨stem ++ '|' :: (if version.isEmpty then "nover".data else version)⟩

/-! ## Fuzzy grouping (`_find_compatible_group_key`) and aggregation
(`_aggregate_results`). -/

/-- `key.split("|", 1)`: the stem and the version (every key produced by
`_content_key` contains exactly one bar). -/
def splitKeyBar (k : String) : List Char × List Char :=
  let stem := k.data.takeWhile (fun c => c ≠ '|')
  (stem, k.data.drop (stem.length + 1))

/-- `set(stem.split())`. -/
def tokensOfStem (stem : List Char) : Finset String :=
  ((pySplitWs stem).map (fun t => (⟨t⟩ : String))).toFinset

/-- The group-metadata dict value `{"version": …, "tokens": …}`. -/
structure GroupMeta where
  version : String
  tokens : Finset String
deriving DecidableEq

/-- `inter/union ≥ 0.50` with `similarity = 0.0` when the union is empty —
stated without rational division (`union ≤ 2·inter` for a positive union). -/
def simAtLeastHalf (a b : Finset String) : Bool :=
  let inter := (a ∩ b).card
  let union := (a ∪ b).card
  if union = 0 then false else union ≤ 2 * inter

/-- `SourceManager._find_compatible_group_key`: first existing group (in
insertion order) with the same version and Jaccard similarity ≥ 0.50. -/
def findCompatibleGroupKey (key : String)
    (groupMeta : List (String × GroupMeta)) : String :=
  let sv := splitKeyBar key
  let tokens := tokensOfStem sv.1
  if tokens = ∅ then ""
  else
    match groupMeta.find? (fun km =>
        km.2.version = (⟨sv.2⟩ : String) ∧ km.2.tokens ≠ ∅ ∧
        simAtLeastHalf tokens km.2.tokens) with
    | some km => km.1
    | none => ""

/-! ## Candidate bookkeeping (`_ensure_link_candidate`, `_merge_result`). -/

/-- Raise the quality of the first candidate carrying `url` (the source
returns out of the scan after the first hit). -/
def bumpFirstQuality (url : String) (q : ℤ) :
    List LinkCandidate → List LinkCandidate
  | [] => []
  | c :: cs =>
    if c.url = url then { c with quality := max c.quality q } :: cs
    else c :: bumpFirstQuality url q cs

/-- `SourceManager._ensure_link_candidate` (mutates and returns `target`). -/
def ensureLinkCandidate (target sourceResult : SearchResult) : SearchResult :=
  let target :=
    if target.aggregatedSources.isEmpty then
      { target with aggregatedSources :=
          if target.source ≠ "" then [target.source] else [] }
    else target
  let url := ⟨pyStripL sourceResult.magnet.data⟩
  if url = "" then target
  else
    let quality := linkQuality sourceResult
    let candidate : LinkCandidate :=
      ⟨url, sourceResult.source, quality, sourceResult.seeds,
        sourceResult.leeches, sourceResult.size⟩
    if target.linkCandidates.isEmpty then
      { target with linkCandidates := [candidate], linkQuality := quality }
    else if target.linkCandidates.any (fun c => c.url = url) then
      { target with linkCandidates := bumpFirstQuality url quality target.linkCandidates }
    else
      { target with linkCandidates := target.linkCandidates ++ [candidate] }

/-- Candidate de-duplication by stripped URL, dropping empty URLs and keeping
the first occurrence (`seen` accumulates the stripped URLs already taken). -/
def dedupCandidates (seen : List String) :
    List LinkCandidate → List LinkCandidate
  | [] => []
  | c :: cs =>
    let url : String := ⟨pyStripL c.url.data⟩
    if url = "" then dedupCandidates seen cs
    else if seen.contains url then dedupCandidates seen cs
    else c :: dedupCandidates (url :: seen) cs

/-- Stable insertion (descending by quality, after existing equals) — one step
of Python's stable `list.sort(key=quality, reverse=True)`. -/
def insertByQualityDesc (c : LinkCandidate) :
    List LinkCandidate → List LinkCandidate
  | [] => [c]
  | d :: ds =>
    if d.quality < c.quality then c :: d :: ds
    else d :: insertByQualityDesc c ds

/-- Python's stable sort by quality, descending. -/
def sortByQualityDesc (l : List LinkCandidate) : List LinkCandidate :=
  l.foldl (fun acc c => insertByQualityDesc c acc) []

/-- `SourceManager._merge_result` (mutates and returns `base`). -/
def mergeResult (base incoming : SearchResult) : SearchResult :=
  let base := ensureLinkCandidate base incoming
  -- union of the aggregated-source lists, preserving order, skipping empties
  let addName := fun (acc : List String) (n : String) =>
    if n ≠ "" ∧ ¬ acc.contains n then acc ++ [n] else acc
  let base := { base with aggregatedSources :=
    [base.source, incoming.source].foldl addName base.aggregatedSources }
  let merged := dedupCandidates [] (base.linkCandidates ++ incoming.linkCandidates)
  let merged := sortByQualityDesc merged
  let base := { base with linkCandidates := merged }
  let base :=
    match merged with
    | [] => base
    | best :: _ => { base with magnet := best.url, linkQuality := best.quality }
  let base :=
    if base.seeds < incoming.seeds then
      { base with seeds := incoming.seeds, leeches := incoming.leeches }
    else base
  let base := if base.size < incoming.size then { base with size := incoming.size } else base
  let base :=
    if titleSpecificityScore base.title < titleSpecificityScore incoming.title then
      { base with title := incoming.title }
    else base
  let sourceCount := base.aggregatedSources.length
  if 1 < sourceCount then
    { base with source :=
        (base.aggregatedSources.headD "") ++ " +" ++ toString (sourceCount - 1) }
  else base

/-- The metadata stored for a fresh group key:
`{"version": version, "tokens": set(stem.split())}`. -/
def metaOfKey (k : String) : GroupMeta :=
  let sv := splitKeyBar k
  ⟨⟨sv.2⟩, tokensOfStem sv.1⟩

/-- Key resolution inside the `_aggregate_results` loop: an exact hit in
`grouped` keeps the key, otherwise a non-empty fuzzy hit redirects to the
existing group's key. -/
def resolvedGroupKey (key : String) (grouped : List (String × SearchResult))
    (groupMeta : List (String × GroupMeta)) : String :=
  if (grouped.lookup key).isSome then key
  else
    let fuzzyKey := findCompatibleGroupKey key groupMeta
    if fuzzyKey ≠ "" then fuzzyKey else key

/-- One iteration of the `_aggregate_results` loop.  The source computes the
content key of the result after `_ensure_link_candidate(result, result)`;
that call never touches the title (theorem `ensureLinkCandidate_title`
below), so the key is computed from the incoming result directly. -/
def aggregateStep (r : SearchResult) (grouped : List (String × SearchResult))
    (groupMeta : List (String × GroupMeta)) (passthrough : List SearchResult) :
    List (String × SearchResult) × List (String × GroupMeta) ×
      List SearchResult :=
  let key := contentKey r
  if key = "" then (grouped, groupMeta, passthrough ++ [ensureLinkCandidate r r])
  else
    let resolvedKey := resolvedGroupKey key grouped groupMeta
    match grouped.lookup resolvedKey with
    | none =>
      (grouped ++ [(resolvedKey, ensureLinkCandidate r r)],
        groupMeta ++ [(resolvedKey, metaOfKey resolvedKey)], passthrough)
    | some base =>
      (alistSet resolvedKey (mergeResult base (ensureLinkCandidate r r)) grouped,
        groupMeta, passthrough)

/-- The loop of `_aggregate_results`: `grouped` and `group_meta` are the two
insertion-ordered dicts, `passthrough` the keyless results. -/
def aggregateLoop :
    List SearchResult → List (String × SearchResult) →
    List (String × GroupMeta) → List SearchResult →
    List (String × SearchResult) × List SearchResult
  | [], grouped, _, passthrough => (grouped, passthrough)
  | r :: rest, grouped, groupMeta, passthrough =>
    let s := aggregateStep r grouped groupMeta passthrough
    aggregateLoop rest s.1 s.2.1 s.2.2

/-- `SourceManager._aggregate_results`. -/
def aggregateResults (results : List SearchResult) : List SearchResult :=
  let (grouped, passthrough) := aggregateLoop results [] [] []
  grouped.map Prod.snd ++ passthrough

/-! ## Native download backend (`NativeRequestsBackend.download`).

The HTTP exchange is abstracted to a function from the optional `Range`
start offset to the response: an optional `Content-Length` and the body as
the chunk sequence `iter_content(8192)` yields.  File bytes are naturals.
The cooperative-cancel check at each chunk boundary is kept (indexed by
chunk number); the pause sleep-loop only delays and is elided. -/

/-- Split into chunks of size `k+1` (`iter_content(chunk_size=8192)` with
`k = 8191`). -/
def chunksOfSuccGo (k : ℕ) : ℕ → List α → List (List α)
  | _, [] => []
  | 0, l => [l]
  | fuel + 1, x :: xs => (x :: xs).take (k + 1) :: chunksOfSuccGo k fuel (xs.drop k)

def chunksOfSucc (k : ℕ) (l : List α) : List (List α) :=
  chunksOfSuccGo k l.length l

/-- A range-compliant server for `payload`: a plain GET returns the whole
payload, `Range: bytes=n-` returns the bytes from offset `n`, each with the
matching `Content-Length`. -/
def rangedServer (payload : List ℕ) (range : Option ℕ) :
    Option ℕ × List (List ℕ) :=
  match range with
  | none => (some payload.length, chunksOfSucc 8191 payload)
  | some n => (some (payload.length - n), chunksOfSucc 8191 (payload.drop n))

/-- The chunk-write loop: append each non-empty chunk unless the cancel
callback fires first; returns the file bytes and the completion flag. -/
def writeChunks (isCancelled : ℕ → Bool) :
    List (List ℕ) → ℕ → List ℕ → List ℕ × Bool
  | [], _, fileBytes => (fileBytes, true)
  | c :: cs, i, fileBytes =>
    if isCancelled i then (fileBytes, false)
    else writeChunks isCancelled cs (i + 1)
      (if c.isEmpty then fileBytes else fileBytes ++ c)

/-- What the modelled backend did. -/
structure NativeDownloadOutcome where
  sentRange : Option String
  appendMode : Bool
  totalBytes : ℕ
  file : List ℕ
  downloadedBytes : ℕ
  completed : Bool
deriving DecidableEq, Repr

/-- `NativeRequestsBackend.download`: probe the existing file, send a ranged
or plain GET, open in append or overwrite mode, stream the chunks. -/
def nativeDownload (existingFile : Option (List ℕ))
    (server : Option ℕ → Option ℕ × List (List ℕ))
    (isCancelled : ℕ → Bool) : NativeDownloadOutcome :=
  let downloaded0 := (existingFile.map List.length).getD 0
  let range : Option ℕ := if 0 < downloaded0 then some downloaded0 else none
  let rangeHeader : Option String :=
    range.map (fun n => "bytes=" ++ toString n ++ "-")
  let resp := server range
  let totalBytes :=
    match resp.1 with
    | some contentLength => downloaded0 + contentLength
    | none => 0
  let initial : List ℕ := if 0 < downloaded0 then existingFile.getD [] else []
  let written := writeChunks isCancelled resp.2 0 initial
  { sentRange := rangeHeader
    appendMode := 0 < downloaded0
    totalBytes := totalBytes
    file := written.1
    downloadedBytes := written.1.length
    completed := written.2 }

/-! ## Specification-side helpers used only to state the theorems. -/

/-- Distinct keys in order of first occurrence. -/
def firstKeys : List String → List String
  | [] => []
  | k :: ks => k :: (firstKeys ks).filter (fun x => x ≠ k)

/-- The torrent identity keys of an input list (claim C1). -/
def torrentHashes (results : List SearchResult) : List String :=
  (results.filter (fun r => r.infohash ≠ "")).map (fun r => r.infohash)

/-- The non-torrent identity keys of an input list (claim C1). -/
def nonTorrentKeys (results : List SearchResult) : List String :=
  (results.filter (fun r => r.infohash = "" ∧ nonHashKey r ≠ "")).map nonHashKey

/-! ## Concrete instances from the spec's end-to-end scenarios. -/

/-- Scenario §8.1, result `A(infohash=H, seeds=10)`. -/
def resultA : SearchResult :=
  { title := "A", magnet := "m1", size := 0, seeds := 10, leeches := 0,
    source := "S", infohash := "HHHHHHHHHHHHHHHHHHHHHHHHHHHHHHHHHHHHHHHH" }

/-- Scenario §8.1, result `B(infohash=H, seeds=25)`. -/
def resultB : SearchResult :=
  { title := "B", magnet := "m2", size := 0, seeds := 25, leeches := 0,
    source := "T", infohash := "HHHHHHHHHHHHHHHHHHHHHHHHHHHHHHHHHHHHHHHH" }

/-- A result carrying no identity at all: empty infohash, URL and title. -/
def resultBlank : SearchResult :=
  { title := "", magnet := "", size := 0, seeds := 3, leeches := 0,
    source := "S", infohash := "" }

/-- Scenario §8.2, `r1(title="Acme Synth 2024 v3.1", provider="P1",
link=magnet, seeds=5)`. -/
def resultR1 : SearchResult :=
  { title := "Acme Synth 2024 v3.1",
    magnet := "magnet:?xt=urn:btih:AAAAAAAAAAAAAAAAAAAAAAAAAAAAAAAAAAAAAAAA",
    size := 0, seeds := 5, leeches := 0, source := "P1",
    infohash := "AAAAAAAAAAAAAAAAAAAAAAAAAAAAAAAAAAAAAAAA" }

/-- Scenario §8.2, `r2(title="Acme Synth 2024 v3.1 macOS", provider="P2",
link="https://mega.nz/file/abc", seeds=0)`. -/
def resultR2 : SearchResult :=
  { title := "Acme Synth 2024 v3.1 macOS", magnet := "https://mega.nz/file/abc",
    size := 0, seeds := 0, leeches := 0, source := "P2", infohash := "" }

/-- Claim C3 counterexample: three torrent results with one shared version and
pairwise token overlaps A~B and B~C of exactly 0.5, but A~C only 0.2. -/
def resultA3 : SearchResult :=
  { title := "alpha bravo v1.0",
    magnet := "magnet:?xt=urn:btih:BBBBBBBBBBBBBBBBBBBBBBBBBBBBBBBBBBBBBBBB",
    size := 0, seeds := 1, leeches := 0, source := "S1",
    infohash := "BBBBBBBBBBBBBBBBBBBBBBBBBBBBBBBBBBBBBBBB" }

def resultB3 : SearchResult :=
  { title := "bravo charlie v1.0",
    magnet := "magnet:?xt=urn:btih:CCCCCCCCCCCCCCCCCCCCCCCCCCCCCCCCCCCCCCCC",
    size := 0, seeds := 1, leeches := 0, source := "S2",
    infohash := "CCCCCCCCCCCCCCCCCCCCCCCCCCCCCCCCCCCCCCCC" }

def resultC3 : SearchResult :=
  { title := "charlie delta v1.0",
    magnet := "magnet:?xt=urn:btih:DDDDDDDDDDDDDDDDDDDDDDDDDDDDDDDDDDDDDDDD",
    size := 0, seeds := 1, leeches := 0, source := "S3",
    infohash := "DDDDDDDDDDDDDDDDDDDDDDDDDDDDDDDDDDDDDDDD" }

/-- A health record with an expired cooldown and the failure streak that
opened the circuit (threshold 3). -/
def healthOpenExpired : SourceHealth :=
  { attempts := 3, successes := 0, failures := 3, consecutiveFailures := 3,
    lastError := "hard fail", lastLatencyMs := 0, lastAttemptAt := 9,
    lastSuccessAt := 0, cooldownUntil := 10, circuitOpen := true,
    skippedDueCircuit := 0 }

/-! # Theorems -/

theorem ensureLinkCandidate_title (t s : SearchResult) :
    (ensureLinkCandidate t s).title = t.title := by
  simp only [ensureLinkCandidate]
  repeat' split
  all_goals rfl

theorem contentKey_congr (a b : SearchResult) (h : a.title = b.title) :
    contentKey a = contentKey b := by
  simp only [contentKey, h]

theorem contentKey_ensure (r : SearchResult) :
    contentKey (ensureLinkCandidate r r) = contentKey r :=
  contentKey_congr _ _ (ensureLinkCandidate_title r r)

theorem simAtLeastHalf_comm (a b : Finset String) :
    simAtLeastHalf a b = simAtLeastHalf b a := by
  unfold simAtLeastHalf
  rw [Finset.inter_comm, Finset.union_comm]

theorem alistSet_length (k : String) (v : α) (l : List (String × α)) :
    (alistSet k v l).length = l.length := by
  induction l with
  | nil => rfl
  | cons p rest ih =>
    unfold alistSet
    split <;> simp [ih]

/-- Closed form of the fuzzy lookup against a one-group metadata table. -/
theorem findCompatible_singleton_eq (k k' : String) (m : GroupMeta) :
    findCompatibleGroupKey k [(k', m)] =
      (if tokensOfStem (splitKeyBar k).1 ≠ ∅ ∧ m.version = (⟨(splitKeyBar k).2⟩ : String) ∧
          m.tokens ≠ ∅ ∧ simAtLeastHalf (tokensOfStem (splitKeyBar k).1) m.tokens = true
       then k' else "") := by
  simp only [findCompatibleGroupKey, List.find?_singleton]
  by_cases h1 : tokensOfStem (splitKeyBar k).1 = ∅
  · simp [h1]
  · by_cases h2 : m.version = (⟨(splitKeyBar k).2⟩ : String) ∧ m.tokens ≠ ∅ ∧
        simAtLeastHalf (tokensOfStem (splitKeyBar k).1) m.tokens = true
    · simp [h1, h2]
    · simp [h1, h2]

/-- Fuzzy compatibility between two singleton groups is symmetric. -/
theorem findCompatible_singleton_symm (k k' : String)
    (hk : k ≠ "") (hk' : k' ≠ "") :
    (findCompatibleGroupKey k [(k', metaOfKey k')] = "") ↔
    (findCompatibleGroupKey k' [(k, metaOfKey k)] = "") := by
  rw [findCompatible_singleton_eq, findCompatible_singleton_eq]
  have hA : (tokensOfStem (splitKeyBar k).1 ≠ ∅ ∧
        (metaOfKey k').version = (⟨(splitKeyBar k).2⟩ : String) ∧
        (metaOfKey k').tokens ≠ ∅ ∧
        simAtLeastHalf (tokensOfStem (splitKeyBar k).1) (metaOfKey k').tokens = true) ↔
      (tokensOfStem (splitKeyBar k').1 ≠ ∅ ∧
        (metaOfKey k).version = (⟨(splitKeyBar k').2⟩ : String) ∧
        (metaOfKey k).tokens ≠ ∅ ∧
        simAtLeastHalf (tokensOfStem (splitKeyBar k').1) (metaOfKey k).tokens = true) := by
    unfold metaOfKey
    constructor
    · rintro ⟨t1, t2, t3, t4⟩
      rw [simAtLeastHalf_comm] at t4
      exact ⟨t3, t2.symm, t1, t4⟩
    · rintro ⟨t1, t2, t3, t4⟩
      rw [simAtLeastHalf_comm] at t4
      exact ⟨t3, t2.symm, t1, t4⟩
  constructor
  · intro h
    split at h
    · exact absurd h hk'
    · rename_i hna
      rw [if_neg (fun ha => hna (hA.mpr ha))]
  · intro h
    split at h
    · exact absurd h hk
    · rename_i hna
      rw [if_neg (fun ha => hna (hA.mp ha))]

theorem findCompatible_nil (k : String) : findCompatibleGroupKey k [] = "" := by
  simp only [findCompatibleGroupKey, List.find?_nil]
  split <;> rfl

theorem findCompatible_empty_key (l : List (String × GroupMeta)) :
    findCompatibleGroupKey "" l = "" := by
  simp only [findCompatibleGroupKey]
  rw [if_pos]
  rfl

theorem findCompatible_singleton_cases (k k' : String) (m : GroupMeta) :
    findCompatibleGroupKey k [(k', m)] = "" ∨
    findCompatibleGroupKey k [(k', m)] = k' := by
  rw [findCompatible_singleton_eq]
  split
  · exact Or.inr rfl
  · exact Or.inl rfl

theorem lookup_singleton_self (k : String) (v : α) :
    List.lookup k [(k, v)] = some v := by
  simp [List.lookup]

theorem lookup_singleton_ne (k k' : String) (v : α) (h : k ≠ k') :
    List.lookup k [(k', v)] = none := by
  have hb : (k == k') = false := beq_eq_false_iff_ne.mpr h
  simp [List.lookup, hb]

/-- A keyless result goes to the passthrough list. -/
theorem aggregateStep_pass (r : SearchResult)
    (g : List (String × SearchResult)) (m : List (String × GroupMeta))
    (p : List SearchResult) (h : contentKey r = "") :
    aggregateStep r g m p = (g, m, p ++ [ensureLinkCandidate r r]) := by
  simp only [aggregateStep, h, if_pos]

/-- Into an empty table, a keyed result founds its own group. -/
theorem aggregateStep_fresh_empty (r : SearchResult) (p : List SearchResult)
    (h : contentKey r ≠ "") :
    aggregateStep r [] [] p =
      ([(contentKey r, ensureLinkCandidate r r)],
        [(contentKey r, metaOfKey (contentKey r))], p) := by
  simp only [aggregateStep, h, resolvedGroupKey, findCompatible_nil,
    List.lookup_nil, Option.isSome_none, Bool.false_eq_true, if_false,
    ne_eq, not_true, ite_self, if_neg, List.nil_append]

/-- Against one existing group with key `k`, a result whose key matches
exactly or fuzzily is merged into that group. -/
theorem aggregateStep_merge_single (r : SearchResult)
    (k : String) (v : SearchResult) (mta : GroupMeta) (p : List SearchResult)
    (hk : k ≠ "")
    (hkey : contentKey r = k ∨ (contentKey r ≠ k ∧
      findCompatibleGroupKey (contentKey r) [(k, mta)] = k)) :
    aggregateStep r [(k, v)] [(k, mta)] p =
      ([(k, mergeResult v (ensureLinkCandidate r r))], [(k, mta)], p) := by
  rcases hkey with hkr | ⟨hne, hf⟩
  · have h : contentKey r ≠ "" := by rw [hkr]; exact hk
    simp only [aggregateStep, hkr, resolvedGroupKey, lookup_singleton_self,
      Option.isSome_some, if_true, ne_eq, hk, not_false_iff, alistSet,
      if_false]
  · have h : contentKey r ≠ "" := by
      intro h0
      rw [h0, findCompatible_empty_key] at hf
      exact hk hf.symm
    simp only [aggregateStep, h, resolvedGroupKey,
      lookup_singleton_ne _ _ _ hne, Option.isSome_none, Bool.false_eq_true,
      if_false, hf, ne_eq, hk, not_false_iff, if_true, lookup_singleton_self,
      alistSet]

/-- Against one existing incompatible group, a keyed result founds a second
group. -/
theorem aggregateStep_fresh_single (r : SearchResult)
    (k : String) (v : SearchResult) (mta : GroupMeta) (p : List SearchResult)
    (h : contentKey r ≠ "") (hne : contentKey r ≠ k)
    (hfuz : findCompatibleGroupKey (contentKey r) [(k, mta)] = "") :
    aggregateStep r [(k, v)] [(k, mta)] p =
      ([(k, v), (contentKey r, ensureLinkCandidate r r)],
        [(k, mta), (contentKey r, metaOfKey (contentKey r))], p) := by
  simp only [aggregateStep, h, resolvedGroupKey,
    lookup_singleton_ne _ _ _ hne, Option.isSome_none, Bool.false_eq_true,
    if_false, hfuz, ne_eq, not_true, ite_self]
  simp [lookup_singleton_ne _ _ _ hne]

theorem aggregateLoop_cons (r : SearchResult) (rest : List SearchResult)
    (g : List (String × SearchResult)) (m : List (String × GroupMeta))
    (p : List SearchResult) :
    aggregateLoop (r :: rest) g m p =
      aggregateLoop rest (aggregateStep r g m p).1 (aggregateStep r g m p).2.1
        (aggregateStep r g m p).2.2 := rfl

theorem aggregateLoop_nil (g : List (String × SearchResult))
    (m : List (String × GroupMeta)) (p : List SearchResult) :
    aggregateLoop [] g m p = (g, p) := rfl

/-- Claim C3 (corrected): aggregation is NOT commutative in general — the
fuzzy merge (same version, Jaccard ≥ 0.50 against the founding group's
tokens) is not transitive, so with three or more results group membership
depends on observation order (see the counterexample).  What does hold, and
is proved here, is pairwise order-independence: for any two results the two
processing orders yield the same number of unified items (whether the pair
merges is symmetric in the two results). -/
theorem aggregate_pair_order_invariant (a b : SearchResult) :
    (aggregateResults [a, b]).length = (aggregateResults [b, a]).length := by
  by_cases ha : contentKey a = "" <;> by_cases hb : contentKey b = ""
  · simp only [aggregateResults, aggregateLoop_cons, aggregateLoop_nil,
      aggregateStep_pass, ha, hb]
    simp
  · simp only [aggregateResults, aggregateLoop_cons, aggregateLoop_nil,
      aggregateStep_pass, aggregateStep_fresh_empty, ha, hb, ne_eq,
      not_false_iff]
  · simp only [aggregateResults, aggregateLoop_cons, aggregateLoop_nil,
      aggregateStep_pass, aggregateStep_fresh_empty, ha, hb, ne_eq,
      not_false_iff]
  · by_cases hab : contentKey b = contentKey a
    · have hba : contentKey a = contentKey b := hab.symm
      simp only [aggregateResults]
      rw [aggregateLoop_cons, aggregateStep_fresh_empty a [] ha]
      dsimp only
      rw [aggregateLoop_cons,
        aggregateStep_merge_single b (contentKey a) (ensureLinkCandidate a a)
          (metaOfKey (contentKey a)) [] ha (Or.inl hab)]
      dsimp only
      rw [aggregateLoop_cons, aggregateStep_fresh_empty b [] hb]
      dsimp only
      rw [aggregateLoop_cons,
        aggregateStep_merge_single a (contentKey b) (ensureLinkCandidate b b)
          (metaOfKey (contentKey b)) [] hb (Or.inl hba)]
      simp [aggregateLoop_nil]
    · have hba : ¬ contentKey a = contentKey b := fun h => hab h.symm
      rcases findCompatible_singleton_cases (contentKey b) (contentKey a)
          (metaOfKey (contentKey a)) with hf | hf
      · have hf2 : findCompatibleGroupKey (contentKey a)
            [(contentKey b, metaOfKey (contentKey b))] = "" :=
          (findCompatible_singleton_symm (contentKey b) (contentKey a) hb ha).mp hf
        simp only [aggregateResults]
        rw [aggregateLoop_cons, aggregateStep_fresh_empty a [] ha]
        dsimp only
        rw [aggregateLoop_cons,
          aggregateStep_fresh_single b (contentKey a) (ensureLinkCandidate a a)
            (metaOfKey (contentKey a)) [] hb hab hf]
        dsimp only
        rw [aggregateLoop_cons, aggregateStep_fresh_empty b [] hb]
        dsimp only
        rw [aggregateLoop_cons,
          aggregateStep_fresh_single a (contentKey b) (ensureLinkCandidate b b)
            (metaOfKey (contentKey b)) [] ha hba hf2]
        simp [aggregateLoop_nil]
      · have hfne : ¬ findCompatibleGroupKey (contentKey b)
            [(contentKey a, metaOfKey (contentKey a))] = "" := by
          rw [hf]; exact ha
        have hf2 : findCompatibleGroupKey (contentKey a)
            [(contentKey b, metaOfKey (contentKey b))] = contentKey b := by
          rcases findCompatible_singleton_cases (contentKey a) (contentKey b)
              (metaOfKey (contentKey b)) with h2 | h2
          · exact absurd ((findCompatible_singleton_symm (contentKey b)
              (contentKey a) hb ha).mpr h2) hfne
          · exact h2
        simp only [aggregateResults]
        rw [aggregateLoop_cons, aggregateStep_fresh_empty a [] ha]
        dsimp only
        rw [aggregateLoop_cons,
          aggregateStep_merge_single b (contentKey a) (ensureLinkCandidate a a)
            (metaOfKey (contentKey a)) [] ha (Or.inr ⟨hab, hf⟩)]
        dsimp only
        rw [aggregateLoop_cons, aggregateStep_fresh_empty b [] hb]
        dsimp only
        rw [aggregateLoop_cons,
          aggregateStep_merge_single a (contentKey b) (ensureLinkCandidate b b)
            (metaOfKey (contentKey b)) [] hb (Or.inr ⟨hba, hf2⟩)]
        simp [aggregateLoop_nil]

theorem list_any_or (l : List α) (p q : α → Bool) :
    l.any (fun x => p x || q x) = (l.any p || l.any q) := by
  induction l with
  | nil => rfl
  | cons a l ih =>
    simp only [List.any_cons, ih]
    cases p a <;> cases q a <;> simp

theorem earlyReturnCond_wait_false (cfg : ReliabilityConfig)
    (pending : List String) (n : ℕ) (e : ℚ) :
    earlyReturnCond cfg pending n e true = false := by
  simp [earlyReturnCond]

/-- Claim C4 counterexample: the claim's fast-return condition is not the
code's.  With `earlyReturnMinResults = 0`, no results, one pending provider,
elapsed 1 s and threshold 0 s, the claim's conjunction holds but the code
does not fire, because the source clamps the result threshold to
`max(1, early_return_min_results)`. -/
theorem fast_return_claim_condition_differs :
    earlyReturnCondClaim ⟨0, 0, true⟩ ["slow"] 0 1 false = true ∧
    earlyReturnCond ⟨0, 0, true⟩ ["slow"] 0 1 false = false := by
  constructor <;> decide

/-- Claim C4 (corrected): the collection loop fast-returns exactly when the
claim's conjunction holds with the two thresholds clamped to
`max(1, earlyReturnMinResults)` and `max(0, earlyReturnSeconds)`; exactly
`earlyReturnMinResults ≥ 1` results at exactly `earlyReturnSeconds ≥ 0`
fires; and with `waitForAllSources = true` the loop never exits through the
fast-return branch (it runs to completion, deadline, or end of trace). -/
theorem coordinator_fast_return_spec (cfg : ReliabilityConfig)
    (pending : List String) (numResults : ℕ) (elapsed : ℚ) (wait : Bool)
    (deadline : ℚ) (steps : List PollStep) (pending0 : List String)
    (results0 : ℕ) :
    (earlyReturnCond cfg pending numResults elapsed wait =
      earlyReturnCondClaim
        ⟨max 1 cfg.earlyReturnMinResults, max 0 cfg.earlyReturnSeconds,
          cfg.preferHttpCompletion⟩ pending numResults elapsed wait) ∧
    (1 ≤ cfg.earlyReturnMinResults → 0 ≤ cfg.earlyReturnSeconds →
      pending ≠ [] → (numResults : ℤ) = cfg.earlyReturnMinResults →
      elapsed = cfg.earlyReturnSeconds →
      (∀ n ∈ pending, pyLower n ≠ "http" ∧ pyLower n ≠ "opendirectory") →
      earlyReturnCond cfg pending numResults elapsed false = true) ∧
    (collectLoop cfg true deadline steps pending0 results0).1 ≠ .fastReturn := by
  refine ⟨?_, ?_, ?_⟩
  · simp only [earlyReturnCond, earlyReturnCondClaim]
    cases hp : cfg.preferHttpCompletion
    · simp
    · simp only [if_true, Bool.true_and]
      congr 1
      rw [show (fun n => ["http", "opendirectory"].contains (pyLower n))
            = (fun n => (pyLower n == "http") || (pyLower n == "opendirectory")) from ?_]
      · rw [list_any_or]
      · funext n
        simp only [List.contains_cons, List.contains_nil, Bool.or_false]
  · intro h1 h2 h3 h4 h5 h6
    have hmax1 : max 1 cfg.earlyReturnMinResults = cfg.earlyReturnMinResults :=
      max_eq_right h1
    have hmax2 : max 0 cfg.earlyReturnSeconds = cfg.earlyReturnSeconds :=
      max_eq_right h2
    have hany1 : pending.any (fun n => pyLower n == "http") = false := by
      simp only [List.any_eq_false]
      intro n hn
      simpa using (h6 n hn).1
    have hany2 : pending.any (fun n => pyLower n == "opendirectory") = false := by
      simp only [List.any_eq_false]
      intro n hn
      simpa using (h6 n hn).2
    simp [earlyReturnCond, hmax1, hmax2, hany1, hany2, h3, h4, h5]
  · induction steps generalizing pending0 results0 with
    | nil =>
      rw [collectLoop]
      split
      · simp
      · simp
    | cons st rest ih =>
      rw [collectLoop]
      split
      · simp
      · split
        · simp
        · simp only [earlyReturnCond_wait_false, Bool.false_eq_true, if_false]
          exact ih _ _

theorem chunksOfSuccGo_flatten (k : ℕ) :
    ∀ (fuel : ℕ) (l : List α), l.length ≤ fuel →
      (chunksOfSuccGo k fuel l).flatten = l := by
  intro fuel
  induction fuel with
  | zero =>
    intro l hl
    have : l = [] := List.eq_nil_of_length_eq_zero (Nat.le_zero.mp hl)
    subst this
    rfl
  | succ fuel ih =>
    intro l hl
    cases l with
    | nil => rfl
    | cons x xs =>
      have hd : (xs.drop k).length ≤ fuel := by
        have := List.length_drop k xs
        simp only [List.length_cons] at hl
        omega
      simp only [chunksOfSuccGo, List.flatten_cons, ih _ hd, List.take_succ_cons]
      rw [List.cons_append, List.take_append_drop]

theorem chunksOfSucc_flatten (k : ℕ) (l : List α) :
    (chunksOfSucc k l).flatten = l :=
  chunksOfSuccGo_flatten k l.length l le_rfl

theorem writeChunks_no_cancel (chunks : List (List ℕ)) :
    ∀ (i : ℕ) (acc : List ℕ),
      writeChunks (fun _ => false) chunks i acc = (acc ++ chunks.flatten, true) := by
  induction chunks with
  | nil => intro i acc; simp [writeChunks]
  | cons c cs ih =>
    intro i acc
    simp only [writeChunks, Bool.false_eq_true, if_false, ih, List.flatten_cons]
    by_cases hc : c.isEmpty
    · have : c = [] := List.isEmpty_iff.mp hc
      subst this
      simp
    · simp [hc, List.append_assoc]

/-- Claim C9 (confirmed): against a range-compliant server for `payload`,
if the output file holds the first `N > 0` bytes of the payload the native
backend sends `Range: bytes=N-`, opens in append mode, writes exactly the
remaining bytes, and the final file equals the full payload, with
`totalBytes` and `downloadedBytes` equal to the payload length; without an
existing file it sends a plain GET (no `Range`), overwrites, and produces
the same bytes. -/
theorem native_resume_spec (payload : List ℕ) (N : ℕ)
    (h1 : 0 < N) (h2 : N ≤ payload.length) :
    ((nativeDownload (some (payload.take N)) (rangedServer payload)
        (fun _ => false)).sentRange = some ("bytes=" ++ toString N ++ "-") ∧
     (nativeDownload (some (payload.take N)) (rangedServer payload)
        (fun _ => false)).appendMode = true ∧
     (nativeDownload (some (payload.take N)) (rangedServer payload)
        (fun _ => false)).file = payload ∧
     (nativeDownload (some (payload.take N)) (rangedServer payload)
        (fun _ => false)).completed = true ∧
     (nativeDownload (some (payload.take N)) (rangedServer payload)
        (fun _ => false)).downloadedBytes = payload.length ∧
     (nativeDownload (some (payload.take N)) (rangedServer payload)
        (fun _ => false)).totalBytes = payload.length) ∧
    ((nativeDownload none (rangedServer payload) (fun _ => false)).sentRange = none ∧
     (nativeDownload none (rangedServer payload) (fun _ => false)).appendMode = false ∧
     (nativeDownload none (rangedServer payload) (fun _ => false)).file = payload ∧
     (nativeDownload none (rangedServer payload) (fun _ => false)).completed = true) := by
  have hlen : (payload.take N).length = N := by
    rw [List.length_take]
    omega
  constructor
  · simp only [nativeDownload, Option.map_some', Option.getD_some, hlen, h1, if_true,
      rangedServer, writeChunks_no_cancel, chunksOfSucc_flatten]
    refine ⟨trivial, by decide, List.take_append_drop N payload, trivial, ?_, ?_⟩
    · rw [List.length_append, hlen, List.length_drop]
      omega
    · exact Nat.add_sub_cancel' h2
  · simp only [nativeDownload, Option.map_none', Option.getD_none, Nat.lt_irrefl,
      if_false, rangedServer, writeChunks_no_cancel, chunksOfSucc_flatten,
      List.nil_append]
    exact ⟨trivial, by decide, trivial, trivial⟩



theorem native_resume_spec_witness :
    0 < 2048 ∧ 2048 ≤ (List.replicate 4096 (120 : ℕ)).length ∧
    ((nativeDownload (some ((List.replicate 4096 (120 : ℕ)).take 2048))
        (rangedServer (List.replicate 4096 120)) (fun _ => false)).sentRange
        = some ("bytes=" ++ toString 2048 ++ "-") ∧
     (nativeDownload (some ((List.replicate 4096 (120 : ℕ)).take 2048))
        (rangedServer (List.replicate 4096 120)) (fun _ => false)).file
        = List.replicate 4096 120) := by
  have hlen : (List.replicate 4096 (120 : ℕ)).length = 4096 :=
    List.length_replicate 4096 120
  have h := native_resume_spec (List.replicate 4096 (120 : ℕ)) 2048
    (by norm_num) (by rw [hlen]; norm_num)
  exact ⟨by norm_num, by rw [hlen]; norm_num, h.1.1, h.1.2.2.1⟩

theorem lookup_eq_none_iff (k : String) (l : List (String × α)) :
    List.lookup k l = none ↔ k ∉ l.map Prod.fst := by
  induction l with
  | nil => simp
  | cons p rest ih =>
    by_cases h : k = p.1
    · subst h
      simp [List.lookup]
    · have hb : (k == p.1) = false := beq_eq_false_iff_ne.mpr h
      simp [List.lookup, hb, ih, h]

theorem lookup_append_left (k : String) (v : α) (l1 l2 : List (String × α))
    (h : List.lookup k l1 = some v) :
    List.lookup k (l1 ++ l2) = some v := by
  induction l1 with
  | nil => simp at h
  | cons p rest ih =>
    by_cases hk : k = p.1
    · subst hk
      simp [List.lookup] at h ⊢
      exact h
    · have hb : (k == p.1) = false := beq_eq_false_iff_ne.mpr hk
      simp [List.lookup, hb] at h ⊢
      exact ih h

theorem lookup_append_none (k : String) (l1 l2 : List (String × α))
    (h : List.lookup k l1 = none) :
    List.lookup k (l1 ++ l2) = List.lookup k l2 := by
  induction l1 with
  | nil => simp
  | cons p rest ih =>
    by_cases hk : k = p.1
    · subst hk
      simp [List.lookup] at h
    · have hb : (k == p.1) = false := beq_eq_false_iff_ne.mpr hk
      simp only [List.cons_append, List.lookup, hb] at h ⊢
      exact ih h

theorem alistSet_map_fst (k : String) (v : α) (l : List (String × α)) :
    (alistSet k v l).map Prod.fst = l.map Prod.fst := by
  induction l with
  | nil => rfl
  | cons p rest ih =>
    unfold alistSet
    split <;> simp [ih]

theorem alistSet_lookup_mem (k : String) (v : α) (l : List (String × α))
    (h : k ∈ l.map Prod.fst) :
    List.lookup k (alistSet k v l) = some v := by
  induction l with
  | nil => simp at h
  | cons p rest ih =>
    by_cases hk : p.1 = k
    · unfold alistSet
      rw [if_pos hk]
      subst hk
      simp [List.lookup]
    · unfold alistSet
      rw [if_neg hk]
      have hb : (k == p.1) = false := beq_eq_false_iff_ne.mpr (fun e => hk e.symm)
      simp only [List.map_cons, List.mem_cons] at h
      rcases h with h | h
      · exact absurd h.symm hk
      · simp [List.lookup, hb, ih h]

theorem alistSet_lookup_ne (k k' : String) (v : α) (l : List (String × α))
    (h : k' ≠ k) :
    List.lookup k' (alistSet k v l) = List.lookup k' l := by
  induction l with
  | nil => rfl
  | cons p rest ih =>
    unfold alistSet
    by_cases hk : p.1 = k
    · rw [if_pos hk]
      subst hk
      have hb : (k' == p.1) = false := beq_eq_false_iff_ne.mpr h
      simp [List.lookup, hb]
    · rw [if_neg hk]
      by_cases hk' : k' = p.1
      · subst hk'
        simp [List.lookup]
      · have hb : (k' == p.1) = false := beq_eq_false_iff_ne.mpr hk'
        simp [List.lookup, hb, ih]

theorem lookup_of_mem_nodup (l : List (String × α)) (p : String × α)
    (hnd : (l.map Prod.fst).Nodup) (hmem : p ∈ l) :
    List.lookup p.1 l = some p.2 := by
  induction l with
  | nil => simp at hmem
  | cons q rest ih =>
    simp only [List.map_cons, List.nodup_cons] at hnd
    rcases List.mem_cons.mp hmem with h | h
    · subst h
      simp [List.lookup]
    · have hne : p.1 ≠ q.1 := by
        intro e
        exact hnd.1 (e ▸ List.mem_map_of_mem Prod.fst h)
      have hb : (p.1 == q.1) = false := beq_eq_false_iff_ne.mpr hne
      simp [List.lookup, hb]
      exact ih hnd.2 h

theorem firstKeys_subset (x : String) (l : List String)
    (h : x ∈ firstKeys l) : x ∈ l := by
  induction l with
  | nil => simp [firstKeys] at h
  | cons k ks ih =>
    simp only [firstKeys, List.mem_cons] at h
    rcases h with h | h
    · simp [h]
    · exact List.mem_cons_of_mem _ (ih (List.mem_of_mem_filter h))

theorem firstKeys_nodup (l : List String) : (firstKeys l).Nodup := by
  induction l with
  | nil => simp [firstKeys]
  | cons k ks ih =>
    simp only [firstKeys, List.nodup_cons]
    constructor
    · intro hmem
      have := List.of_mem_filter hmem
      simp at this
    · exact List.Nodup.filter _ ih

theorem firstKeys_mem_iff (x : String) (l : List String) :
    x ∈ firstKeys l ↔ x ∈ l := by
  constructor
  · exact firstKeys_subset x l
  · intro h
    induction l with
    | nil => simp at h
    | cons k ks ih =>
      simp only [firstKeys, List.mem_cons]
      by_cases hx : x = k
      · exact Or.inl hx
      · rcases List.mem_cons.mp h with h0 | h0
        · exact absurd h0 hx
        · refine Or.inr (List.mem_filter.mpr ⟨ih h0, by simpa using hx⟩)

theorem dedupLoop_drop (r : SearchResult) (rest : List SearchResult)
    (sh sn : List (String × SearchResult))
    (h : r.infohash = "") (hk : nonHashKey r = "") :
    dedupLoop (r :: rest) sh sn = dedupLoop rest sh sn := by
  simp only [dedupLoop, h, hk, if_pos]

theorem dedupLoop_skipN (r : SearchResult) (rest : List SearchResult)
    (sh sn : List (String × SearchResult))
    (h : r.infohash = "") (hk : nonHashKey r ≠ "")
    (hs : (List.lookup (nonHashKey r) sn).isSome) :
    dedupLoop (r :: rest) sh sn = dedupLoop rest sh sn := by
  simp only [dedupLoop, h, hk, hs, if_pos, if_true, if_neg, ite_self]

theorem dedupLoop_addN (r : SearchResult) (rest : List SearchResult)
    (sh sn : List (String × SearchResult))
    (h : r.infohash = "") (hk : nonHashKey r ≠ "")
    (hs : List.lookup (nonHashKey r) sn = none) :
    dedupLoop (r :: rest) sh sn =
      dedupLoop rest sh (sn ++ [(nonHashKey r, r)]) := by
  simp only [dedupLoop, h, hk, hs, Option.isSome_none, Bool.false_eq_true,
    if_false, if_pos, ite_self]

theorem dedupLoop_addH (r : SearchResult) (rest : List SearchResult)
    (sh sn : List (String × SearchResult))
    (h : r.infohash ≠ "")
    (hs : List.lookup r.infohash sh = none) :
    dedupLoop (r :: rest) sh sn =
      dedupLoop rest (sh ++ [(r.infohash, r)]) sn := by
  simp only [dedupLoop, h, hs, if_false]

theorem dedupLoop_replaceH (r prev : SearchResult) (rest : List SearchResult)
    (sh sn : List (String × SearchResult))
    (h : r.infohash ≠ "")
    (hs : List.lookup r.infohash sh = some prev)
    (hseeds : prev.seeds < r.seeds) :
    dedupLoop (r :: rest) sh sn =
      dedupLoop rest (alistSet r.infohash r sh) sn := by
  simp only [dedupLoop, h, hs, hseeds, if_false, if_true]

theorem dedupLoop_keepH (r prev : SearchResult) (rest : List SearchResult)
    (sh sn : List (String × SearchResult))
    (h : r.infohash ≠ "")
    (hs : List.lookup r.infohash sh = some prev)
    (hseeds : ¬ prev.seeds < r.seeds) :
    dedupLoop (r :: rest) sh sn = dedupLoop rest sh sn := by
  simp only [dedupLoop, h, hs, hseeds, if_neg, if_false, ite_self]

theorem mem_alistSet (k : String) (v : α) (l : List (String × α))
    (p : String × α) (h : p ∈ alistSet k v l) : p ∈ l ∨ p = (k, v) := by
  induction l with
  | nil => simp [alistSet] at h
  | cons q rest ih =>
    unfold alistSet at h
    split at h
    · rcases List.mem_cons.mp h with h0 | h0
      · rename_i hq
        right
        rw [h0, hq]
      · exact Or.inl (List.mem_cons_of_mem _ h0)
    · rcases List.mem_cons.mp h with h0 | h0
      · exact Or.inl (h0 ▸ List.mem_cons_self q rest)
      · rcases ih h0 with h1 | h1
        · exact Or.inl (List.mem_cons_of_mem _ h1)
        · exact Or.inr h1

theorem torrentHashes_cons_pos (r : SearchResult) (l : List SearchResult)
    (h : r.infohash ≠ "") :
    torrentHashes (r :: l) = r.infohash :: torrentHashes l := by
  simp [torrentHashes, List.filter_cons, h]

theorem torrentHashes_cons_neg (r : SearchResult) (l : List SearchResult)
    (h : r.infohash = "") :
    torrentHashes (r :: l) = torrentHashes l := by
  simp [torrentHashes, List.filter_cons, h]

theorem nonTorrentKeys_cons_tor (r : SearchResult) (l : List SearchResult)
    (h : r.infohash ≠ "") :
    nonTorrentKeys (r :: l) = nonTorrentKeys l := by
  simp [nonTorrentKeys, List.filter_cons, h]

theorem nonTorrentKeys_cons_blank (r : SearchResult) (l : List SearchResult)
    (h : r.infohash = "") (hk : nonHashKey r = "") :
    nonTorrentKeys (r :: l) = nonTorrentKeys l := by
  simp [nonTorrentKeys, List.filter_cons, h, hk]

theorem nonTorrentKeys_cons_key (r : SearchResult) (l : List SearchResult)
    (h : r.infohash = "") (hk : nonHashKey r ≠ "") :
    nonTorrentKeys (r :: l) = nonHashKey r :: nonTorrentKeys l := by
  simp [nonTorrentKeys, List.filter_cons, h, hk]

/-- The torrent map's values carry their own infohash as key, and keys are
never empty. -/
theorem dedupLoop_invH (rest : List SearchResult) :
    ∀ (sh sn : List (String × SearchResult)),
      (∀ p ∈ sh, p.2.infohash = p.1 ∧ p.1 ≠ "") →
      ∀ p ∈ (dedupLoop rest sh sn).1, p.2.infohash = p.1 ∧ p.1 ≠ "" := by
  induction rest with
  | nil => intro sh sn hi p hp; exact hi p hp
  | cons r rs ih =>
    intro sh sn hi p hp
    by_cases hr : r.infohash = ""
    · by_cases hk : nonHashKey r = ""
      · rw [dedupLoop_drop r rs sh sn hr hk] at hp
        exact ih sh sn hi p hp
      · cases hs : List.lookup (nonHashKey r) sn with
        | some w =>
          rw [dedupLoop_skipN r rs sh sn hr hk (by simp [hs])] at hp
          exact ih sh sn hi p hp
        | none =>
          rw [dedupLoop_addN r rs sh sn hr hk hs] at hp
          exact ih sh _ hi p hp
    · cases hs : List.lookup r.infohash sh with
      | none =>
        rw [dedupLoop_addH r rs sh sn hr hs] at hp
        refine ih _ sn ?_ p hp
        intro q hq
        rcases List.mem_append.mp hq with h0 | h0
        · exact hi q h0
        · simp only [List.mem_singleton] at h0
          rw [h0]
          exact ⟨rfl, hr⟩
      | some prev =>
        by_cases hseeds : prev.seeds < r.seeds
        · rw [dedupLoop_replaceH r prev rs sh sn hr hs hseeds] at hp
          refine ih _ sn ?_ p hp
          intro q hq
          rcases mem_alistSet _ _ _ _ hq with h0 | h0
          · exact hi q h0
          · rw [h0]
            exact ⟨rfl, hr⟩
        · rw [dedupLoop_keepH r prev rs sh sn hr hs hseeds] at hp
          exact ih sh sn hi p hp

/-- The non-torrent map's values have an empty infohash and carry their own
non-empty identity key. -/
theorem dedupLoop_invN (rest : List SearchResult) :
    ∀ (sh sn : List (String × SearchResult)),
      (∀ p ∈ sn, p.2.infohash = "" ∧ nonHashKey p.2 = p.1 ∧ p.1 ≠ "") →
      ∀ p ∈ (dedupLoop rest sh sn).2,
        p.2.infohash = "" ∧ nonHashKey p.2 = p.1 ∧ p.1 ≠ "" := by
  induction rest with
  | nil => intro sh sn hi p hp; exact hi p hp
  | cons r rs ih =>
    intro sh sn hi p hp
    by_cases hr : r.infohash = ""
    · by_cases hk : nonHashKey r = ""
      · rw [dedupLoop_drop r rs sh sn hr hk] at hp
        exact ih sh sn hi p hp
      · cases hs : List.lookup (nonHashKey r) sn with
        | some w =>
          rw [dedupLoop_skipN r rs sh sn hr hk (by simp [hs])] at hp
          exact ih sh sn hi p hp
        | none =>
          rw [dedupLoop_addN r rs sh sn hr hk hs] at hp
          refine ih sh _ ?_ p hp
          intro q hq
          rcases List.mem_append.mp hq with h0 | h0
          · exact hi q h0
          · simp only [List.mem_singleton] at h0
            rw [h0]
            exact ⟨hr, rfl, hk⟩
    · cases hs : List.lookup r.infohash sh with
      | none =>
        rw [dedupLoop_addH r rs sh sn hr hs] at hp
        exact ih _ sn hi p hp
      | some prev =>
        by_cases hseeds : prev.seeds < r.seeds
        · rw [dedupLoop_replaceH r prev rs sh sn hr hs hseeds] at hp
          exact ih _ sn hi p hp
        · rw [dedupLoop_keepH r prev rs sh sn hr hs hseeds] at hp
          exact ih sh sn hi p hp

theorem filter_not_mem_append_singleton (K : List String) (h₀ : String)
    (L : List String) :
    L.filter (fun x => x ∉ K ++ [h₀]) =
      (L.filter (fun x => x ≠ h₀)).filter (fun x => x ∉ K) := by
  rw [List.filter_filter]
  apply List.filter_congr
  intro x hx
  by_cases h1 : x = h₀ <;> by_cases h2 : x ∈ K <;>
    simp [List.mem_append, h1, h2]

theorem filter_ne_of_mem (K : List String) (h₀ : String) (hK : h₀ ∈ K)
    (L : List String) :
    (L.filter (fun x => x ≠ h₀)).filter (fun x => x ∉ K) =
      L.filter (fun x => x ∉ K) := by
  rw [List.filter_filter]
  apply List.filter_congr
  intro x hx
  by_cases h2 : x ∈ K
  · simp [h2]
  · have h1 : x ≠ h₀ := fun e => h2 (e ▸ hK)
    simp [h1, h2]

/-- The torrent map's key list after the loop: previous keys, then the fresh
torrent infohashes in first-occurrence order. -/
theorem dedupLoop_keysH (rest : List SearchResult) :
    ∀ (sh sn : List (String × SearchResult)),
      (dedupLoop rest sh sn).1.map Prod.fst =
        sh.map Prod.fst ++
          (firstKeys (torrentHashes rest)).filter
            (fun k => k ∉ sh.map Prod.fst) := by
  induction rest with
  | nil =>
    intro sh sn
    simp [dedupLoop, torrentHashes, firstKeys]
  | cons r rs ih =>
    intro sh sn
    by_cases hr : r.infohash = ""
    · have ht := torrentHashes_cons_neg r rs hr
      by_cases hk : nonHashKey r = ""
      · rw [dedupLoop_drop r rs sh sn hr hk, ht, ih sh sn]
      · cases hs : List.lookup (nonHashKey r) sn with
        | some w =>
          rw [dedupLoop_skipN r rs sh sn hr hk (by simp [hs]), ht, ih sh sn]
        | none =>
          rw [dedupLoop_addN r rs sh sn hr hk hs, ht, ih sh _]
    · have ht := torrentHashes_cons_pos r rs hr
      cases hs : List.lookup r.infohash sh with
      | none =>
        have hnm : r.infohash ∉ sh.map Prod.fst :=
          (lookup_eq_none_iff _ _).mp hs
        rw [dedupLoop_addH r rs sh sn hr hs, ht, ih _ sn]
        rw [List.map_append]
        simp only [List.map_cons, List.map_nil]
        rw [firstKeys, List.filter_cons]
        simp only [hnm, not_false_iff, decide_True, if_true]
        rw [filter_not_mem_append_singleton]
        rw [List.append_assoc]
        rfl
      | some prev =>
        have hnm : r.infohash ∈ sh.map Prod.fst := by
          by_contra h0
          rw [(lookup_eq_none_iff _ _).mpr h0] at hs
          cases hs
        have hfilters :
            (firstKeys (r.infohash :: torrentHashes rs)).filter
                (fun k => k ∉ sh.map Prod.fst) =
              (firstKeys (torrentHashes rs)).filter
                (fun k => k ∉ sh.map Prod.fst) := by
          rw [firstKeys, List.filter_cons]
          simp only [hnm, not_true, decide_False, Bool.false_eq_true, if_false]
          exact filter_ne_of_mem _ _ hnm _
        by_cases hseeds : prev.seeds < r.seeds
        · rw [dedupLoop_replaceH r prev rs sh sn hr hs hseeds, ht, hfilters,
            ih _ sn, alistSet_map_fst]
        · rw [dedupLoop_keepH r prev rs sh sn hr hs hseeds, ht, hfilters,
            ih sh sn]

/-- The non-torrent map's key list after the loop. -/
theorem dedupLoop_keysN (rest : List SearchResult) :
    ∀ (sh sn : List (String × SearchResult)),
      (dedupLoop rest sh sn).2.map Prod.fst =
        sn.map Prod.fst ++
          (firstKeys (nonTorrentKeys rest)).filter
            (fun k => k ∉ sn.map Prod.fst) := by
  induction rest with
  | nil =>
    intro sh sn
    simp [dedupLoop, nonTorrentKeys, firstKeys]
  | cons r rs ih =>
    intro sh sn
    by_cases hr : r.infohash = ""
    · by_cases hk : nonHashKey r = ""
      · rw [dedupLoop_drop r rs sh sn hr hk,
          nonTorrentKeys_cons_blank r rs hr hk, ih sh sn]
      · rw [nonTorrentKeys_cons_key r rs hr hk]
        cases hs : List.lookup (nonHashKey r) sn with
        | some w =>
          have hnm : nonHashKey r ∈ sn.map Prod.fst := by
            by_contra h0
            rw [(lookup_eq_none_iff _ _).mpr h0] at hs
            cases hs
          rw [dedupLoop_skipN r rs sh sn hr hk (by simp [hs]), ih sh sn]
          rw [firstKeys, List.filter_cons]
          simp only [hnm, not_true, decide_False, Bool.false_eq_true, if_false]
          rw [filter_ne_of_mem _ _ hnm]
        | none =>
          have hnm : nonHashKey r ∉ sn.map Prod.fst :=
            (lookup_eq_none_iff _ _).mp hs
          rw [dedupLoop_addN r rs sh sn hr hk hs, ih sh _]
          rw [List.map_append]
          simp only [List.map_cons, List.map_nil]
          rw [firstKeys, List.filter_cons]
          simp only [hnm, not_false_iff, decide_True, if_true]
          rw [filter_not_mem_append_singleton]
          rw [List.append_assoc]
          rfl
    · rw [nonTorrentKeys_cons_tor r rs hr]
      cases hs : List.lookup r.infohash sh with
      | none => rw [dedupLoop_addH r rs sh sn hr hs, ih _ sn]
      | some prev =>
        by_cases hseeds : prev.seeds < r.seeds
        · rw [dedupLoop_replaceH r prev rs sh sn hr hs hseeds, ih _ sn]
        · rw [dedupLoop_keepH r prev rs sh sn hr hs hseeds, ih sh sn]

/-- A key already present in the torrent map survives the loop, its value only
ever replaced by a strictly better-seeded result with the same infohash; the
final value dominates every later result with that infohash. -/
theorem dedupLoop_lookup_persist (rest : List SearchResult) :
    ∀ (sh sn : List (String × SearchResult)) (h : String) (v₀ : SearchResult),
      h ≠ "" → List.lookup h sh = some v₀ →
      ∃ v, List.lookup h (dedupLoop rest sh sn).1 = some v ∧
        (v = v₀ ∨ (v ∈ rest ∧ v.infohash = h)) ∧ v₀.seeds ≤ v.seeds ∧
        ∀ x ∈ rest, x.infohash = h → x.seeds ≤ v.seeds := by
  induction rest with
  | nil =>
    intro sh sn h v₀ hne hv
    exact ⟨v₀, hv, Or.inl rfl, le_refl _, by simp⟩
  | cons r rs ih =>
    intro sh sn h v₀ hne hv
    by_cases hrh : r.infohash = h
    · -- the incoming result carries the tracked key (so it is a torrent)
      have hr : r.infohash ≠ "" := by rw [hrh]; exact hne
      have hlook : List.lookup r.infohash sh = some v₀ := by rw [hrh]; exact hv
      have hmem : r.infohash ∈ sh.map Prod.fst := by
        by_contra h0
        rw [(lookup_eq_none_iff _ _).mpr h0] at hlook
        cases hlook
      by_cases hseeds : v₀.seeds < r.seeds
      · rw [dedupLoop_replaceH r v₀ rs sh sn hr hlook hseeds]
        have hv' : List.lookup h (alistSet r.infohash r sh) = some r := by
          rw [← hrh]
          exact alistSet_lookup_mem _ _ _ hmem
        obtain ⟨v, h1, h2, h3, h4⟩ := ih _ sn h r hne hv'
        refine ⟨v, h1, ?_, le_of_lt (lt_of_lt_of_le hseeds h3), ?_⟩
        · rcases h2 with h2 | h2
          · exact Or.inr ⟨h2 ▸ List.mem_cons_self r rs, h2 ▸ hrh⟩
          · exact Or.inr ⟨List.mem_cons_of_mem _ h2.1, h2.2⟩
        · intro x hx hxh
          rcases List.mem_cons.mp hx with h0 | h0
          · exact h0 ▸ h3
          · exact h4 x h0 hxh
      · rw [dedupLoop_keepH r v₀ rs sh sn hr hlook hseeds]
        obtain ⟨v, h1, h2, h3, h4⟩ := ih sh sn h v₀ hne hv
        refine ⟨v, h1, ?_, h3, ?_⟩
        · rcases h2 with h2 | h2
          · exact Or.inl h2
          · exact Or.inr ⟨List.mem_cons_of_mem _ h2.1, h2.2⟩
        · intro x hx hxh
          rcases List.mem_cons.mp hx with h0 | h0
          · exact h0 ▸ le_trans (not_lt.mp hseeds) h3
          · exact h4 x h0 hxh
    · -- a result with a different identity never touches the tracked key
      have hext : ∀ (sh' sn' : List (String × SearchResult)),
          List.lookup h sh' = some v₀ →
          (∃ v, List.lookup h (dedupLoop rs sh' sn').1 = some v ∧
            (v = v₀ ∨ (v ∈ rs ∧ v.infohash = h)) ∧ v₀.seeds ≤ v.seeds ∧
            ∀ x ∈ rs, x.infohash = h → x.seeds ≤ v.seeds) →
          ∃ v, List.lookup h (dedupLoop rs sh' sn').1 = some v ∧
            (v = v₀ ∨ (v ∈ r :: rs ∧ v.infohash = h)) ∧ v₀.seeds ≤ v.seeds ∧
            ∀ x ∈ r :: rs, x.infohash = h → x.seeds ≤ v.seeds := by
        intro sh' sn' hv' ⟨v, h1, h2, h3, h4⟩
        refine ⟨v, h1, ?_, h3, ?_⟩
        · rcases h2 with h2 | h2
          · exact Or.inl h2
          · exact Or.inr ⟨List.mem_cons_of_mem _ h2.1, h2.2⟩
        · intro x hx hxh
          rcases List.mem_cons.mp hx with h0 | h0
          · exact absurd (h0 ▸ hxh) hrh
          · exact h4 x h0 hxh
      by_cases hr : r.infohash = ""
      · by_cases hk : nonHashKey r = ""
        · rw [dedupLoop_drop r rs sh sn hr hk]
          exact hext sh sn hv (ih sh sn h v₀ hne hv)
        · cases hs : List.lookup (nonHashKey r) sn with
          | some w =>
            rw [dedupLoop_skipN r rs sh sn hr hk (by simp [hs])]
            exact hext sh sn hv (ih sh sn h v₀ hne hv)
          | none =>
            rw [dedupLoop_addN r rs sh sn hr hk hs]
            exact hext sh _ hv (ih sh _ h v₀ hne hv)
      · cases hs : List.lookup r.infohash sh with
        | none =>
          rw [dedupLoop_addH r rs sh sn hr hs]
          have hv' : List.lookup h (sh ++ [(r.infohash, r)]) = some v₀ :=
            lookup_append_left h v₀ sh _ hv
          exact hext _ sn hv' (ih _ sn h v₀ hne hv')
        | some prev =>
          by_cases hseeds : prev.seeds < r.seeds
          · rw [dedupLoop_replaceH r prev rs sh sn hr hs hseeds]
            have hv' : List.lookup h (alistSet r.infohash r sh) = some v₀ := by
              rw [alistSet_lookup_ne _ _ _ _ (fun e => hrh e.symm)]
              exact hv
            exact hext _ sn hv' (ih _ sn h v₀ hne hv')
          · rw [dedupLoop_keepH r prev rs sh sn hr hs hseeds]
            exact hext sh sn hv (ih sh sn h v₀ hne hv)

/-- A torrent infohash occurring in the remaining input ends up in the map
with a maximal-seeds representative from the input. -/
theorem dedupLoop_lookup_fresh (rest : List SearchResult) :
    ∀ (sh sn : List (String × SearchResult)) (h : String),
      h ≠ "" → List.lookup h sh = none →
      (∃ x₀ ∈ rest, x₀.infohash = h) →
      ∃ v, List.lookup h (dedupLoop rest sh sn).1 = some v ∧ v ∈ rest ∧
        v.infohash = h ∧ ∀ x ∈ rest, x.infohash = h → x.seeds ≤ v.seeds := by
  induction rest with
  | nil =>
    intro sh sn h hne hnone hx
    simp at hx
  | cons r rs ih =>
    intro sh sn h hne hnone hx
    by_cases hrh : r.infohash = h
    · have hr : r.infohash ≠ "" := by rw [hrh]; exact hne
      have hlook : List.lookup r.infohash sh = none := by rw [hrh]; exact hnone
      rw [dedupLoop_addH r rs sh sn hr hlook]
      have hv' : List.lookup h (sh ++ [(r.infohash, r)]) = some r := by
        rw [lookup_append_none _ _ _ hnone, hrh]
        simp [List.lookup]
      obtain ⟨v, h1, h2, h3, h4⟩ :=
        dedupLoop_lookup_persist rs _ sn h r hne hv'
      refine ⟨v, h1, ?_, ?_, ?_⟩
      · rcases h2 with h2 | h2
        · exact h2 ▸ List.mem_cons_self r rs
        · exact List.mem_cons_of_mem _ h2.1
      · rcases h2 with h2 | h2
        · rw [h2, hrh]
        · exact h2.2
      · intro x hxm hxh
        rcases List.mem_cons.mp hxm with h0 | h0
        · exact h0 ▸ h3
        · exact h4 x h0 hxh
    · have hstay : ∀ (sh' sn' : List (String × SearchResult)),
          List.lookup h sh' = none →
          (∃ x₀ ∈ rs, x₀.infohash = h) →
          (∃ v, List.lookup h (dedupLoop rs sh' sn').1 = some v ∧ v ∈ r :: rs ∧
            v.infohash = h ∧
            ∀ x ∈ r :: rs, x.infohash = h → x.seeds ≤ v.seeds) := by
        intro sh' sn' hnone' hx'
        obtain ⟨v, h1, h2, h3, h4⟩ := ih sh' sn' h hne hnone' hx'
        refine ⟨v, h1, List.mem_cons_of_mem _ h2, h3, ?_⟩
        intro x hxm hxh
        rcases List.mem_cons.mp hxm with h0 | h0
        · exact absurd (h0 ▸ hxh) hrh
        · exact h4 x h0 hxh
      have hx' : ∃ x₀ ∈ rs, x₀.infohash = h := by
        obtain ⟨x₀, hx₀m, hx₀h⟩ := hx
        rcases List.mem_cons.mp hx₀m with h0 | h0
        · exact absurd (h0 ▸ hx₀h) hrh
        · exact ⟨x₀, h0, hx₀h⟩
      by_cases hr : r.infohash = ""
      · by_cases hk : nonHashKey r = ""
        · rw [dedupLoop_drop r rs sh sn hr hk]
          exact hstay sh sn hnone hx'
        · cases hs : List.lookup (nonHashKey r) sn with
          | some w =>
            rw [dedupLoop_skipN r rs sh sn hr hk (by simp [hs])]
            exact hstay sh sn hnone hx'
          | none =>
            rw [dedupLoop_addN r rs sh sn hr hk hs]
            exact hstay sh _ hnone hx'
      · cases hs : List.lookup r.infohash sh with
        | none =>
          rw [dedupLoop_addH r rs sh sn hr hs]
          refine hstay _ sn ?_ hx'
          rw [lookup_append_none _ _ _ hnone]
          have hb : (h == r.infohash) = false :=
            beq_eq_false_iff_ne.mpr (fun e => hrh e.symm)
          simp [List.lookup, hb]
        | some prev =>
          by_cases hseeds : prev.seeds < r.seeds
          · rw [dedupLoop_replaceH r prev rs sh sn hr hs hseeds]
            refine hstay _ sn ?_ hx'
            rw [alistSet_lookup_ne _ _ _ _ (fun e => hrh e.symm)]
            exact hnone
          · rw [dedupLoop_keepH r prev rs sh sn hr hs hseeds]
            exact hstay sh sn hnone hx'

/-- A key already present in the non-torrent map keeps its value. -/
theorem dedupLoop_nlookup_persist (rest : List SearchResult) :
    ∀ (sh sn : List (String × SearchResult)) (k : String) (v : SearchResult),
      List.lookup k sn = some v →
      List.lookup k (dedupLoop rest sh sn).2 = some v := by
  induction rest with
  | nil => intro sh sn k v hv; exact hv
  | cons r rs ih =>
    intro sh sn k v hv
    by_cases hr : r.infohash = ""
    · by_cases hk : nonHashKey r = ""
      · rw [dedupLoop_drop r rs sh sn hr hk]; exact ih sh sn k v hv
      · cases hs : List.lookup (nonHashKey r) sn with
        | some w =>
          rw [dedupLoop_skipN r rs sh sn hr hk (by simp [hs])]
          exact ih sh sn k v hv
        | none =>
          rw [dedupLoop_addN r rs sh sn hr hk hs]
          exact ih sh _ k v (lookup_append_left _ _ _ _ hv)
    · cases hs : List.lookup r.infohash sh with
      | none => rw [dedupLoop_addH r rs sh sn hr hs]; exact ih _ sn k v hv
      | some prev =>
        by_cases hseeds : prev.seeds < r.seeds
        · rw [dedupLoop_replaceH r prev rs sh sn hr hs hseeds]
          exact ih _ sn k v hv
        · rw [dedupLoop_keepH r prev rs sh sn hr hs hseeds]
          exact ih sh sn k v hv

/-- A fresh non-torrent key gets the first input result carrying it. -/
theorem dedupLoop_nlookup_first (rest : List SearchResult) :
    ∀ (sh sn : List (String × SearchResult)) (k : String) (x₀ : SearchResult),
      k ≠ "" → List.lookup k sn = none →
      rest.find? (fun x => x.infohash == "" && nonHashKey x == k) = some x₀ →
      List.lookup k (dedupLoop rest sh sn).2 = some x₀ := by
  induction rest with
  | nil => intro sh sn k x₀ hk hnone hf; simp at hf
  | cons r rs ih =>
    intro sh sn k x₀ hkne hnone hf
    by_cases hr : r.infohash = ""
    · by_cases hrk : nonHashKey r = k
      · -- the head is the first match
        have hpred :
            (fun x : SearchResult => x.infohash == "" && nonHashKey x == k) r
              = true := by
          simp [hr, hrk]
        rw [List.find?_cons_of_pos rs hpred] at hf
        injection hf with hf
        subst hf
        have hk : nonHashKey r ≠ "" := by rw [hrk]; exact hkne
        have hs : List.lookup (nonHashKey r) sn = none := by
          rw [hrk]; exact hnone
        rw [dedupLoop_addN r rs sh sn hr hk hs]
        refine dedupLoop_nlookup_persist rs sh _ k r ?_
        rw [lookup_append_none _ _ _ hnone, hrk]
        simp [List.lookup]
      · have hpred :
            ¬ ((fun x : SearchResult => x.infohash == "" && nonHashKey x == k) r
              = true) := by
          simp [hr, hrk]
        rw [List.find?_cons_of_neg rs hpred] at hf
        by_cases hk0 : nonHashKey r = ""
        · rw [dedupLoop_drop r rs sh sn hr hk0]
          exact ih sh sn k x₀ hkne hnone hf
        · cases hs : List.lookup (nonHashKey r) sn with
          | some w =>
            rw [dedupLoop_skipN r rs sh sn hr hk0 (by simp [hs])]
            exact ih sh sn k x₀ hkne hnone hf
          | none =>
            rw [dedupLoop_addN r rs sh sn hr hk0 hs]
            refine ih sh _ k x₀ hkne ?_ hf
            rw [lookup_append_none _ _ _ hnone]
            have hb : (k == nonHashKey r) = false :=
              beq_eq_false_iff_ne.mpr (fun e => hrk e.symm)
            simp [List.lookup, hb]
    · have hpred :
          ¬ ((fun x : SearchResult => x.infohash == "" && nonHashKey x == k) r
            = true) := by
        simp [hr]
      rw [List.find?_cons_of_neg rs hpred] at hf
      cases hs : List.lookup r.infohash sh with
      | none =>
        rw [dedupLoop_addH r rs sh sn hr hs]
        exact ih _ sn k x₀ hkne hnone hf
      | some prev =>
        by_cases hseeds : prev.seeds < r.seeds
        · rw [dedupLoop_replaceH r prev rs sh sn hr hs hseeds]
          exact ih _ sn k x₀ hkne hnone hf
        · rw [dedupLoop_keepH r prev rs sh sn hr hs hseeds]
          exact ih sh sn k x₀ hkne hnone hf

/-- Claim C1 (corrected): deduplication keeps exactly one entry per
non-empty infohash — the kept entry is from the input and attains the
maximum seed count for that infohash — with the torrent entries first in
first-insertion order of their infohashes, followed by the non-torrent
entries keyed by stripped-lowercased URL falling back to stripped-lowercased
title, keeping the first occurrence, in first-insertion key order; a result
with empty infohash whose URL and title are both empty is dropped (the
amendment — see the counterexample).  The §8.1 scenario holds:
`[A(H, seeds=10), B(H, seeds=25)]` dedupes to `[B]`. -/
theorem deduplicate_spec :
    (∀ results : List SearchResult,
      deduplicate results =
        (deduplicate results).filter (fun r => r.infohash ≠ "") ++
          (deduplicate results).filter (fun r => r.infohash = "") ∧
      ((deduplicate results).filter (fun r => r.infohash ≠ "")).map
          (fun r => r.infohash) = firstKeys (torrentHashes results) ∧
      (∀ r ∈ (deduplicate results).filter (fun r => r.infohash ≠ ""),
        r ∈ results ∧
        ∀ x ∈ results, x.infohash = r.infohash → x.seeds ≤ r.seeds) ∧
      ((deduplicate results).filter (fun r => r.infohash = "")).map nonHashKey
        = firstKeys (nonTorrentKeys results) ∧
      (∀ r ∈ (deduplicate results).filter (fun r => r.infohash = ""),
        results.find?
          (fun x => x.infohash == "" && nonHashKey x == nonHashKey r)
          = some r)) ∧
    deduplicate [resultA, resultB] = [resultB] := by
  refine ⟨?_, by decide⟩
  intro results
  have hD : deduplicate results =
      (dedupLoop results [] []).1.map Prod.snd ++
        (dedupLoop results [] []).2.map Prod.snd := rfl
  have invH := dedupLoop_invH results [] [] (by simp)
  have invN := dedupLoop_invN results [] [] (by simp)
  have keysH : (dedupLoop results [] []).1.map Prod.fst =
      firstKeys (torrentHashes results) := by
    have h := dedupLoop_keysH results [] []
    simpa using h
  have keysN : (dedupLoop results [] []).2.map Prod.fst =
      firstKeys (nonTorrentKeys results) := by
    have h := dedupLoop_keysN results [] []
    simpa using h
  have hndH : ((dedupLoop results [] []).1.map Prod.fst).Nodup := by
    rw [keysH]; exact firstKeys_nodup _
  have hndN : ((dedupLoop results [] []).2.map Prod.fst).Nodup := by
    rw [keysN]; exact firstKeys_nodup _
  have hfa : (deduplicate results).filter (fun r => r.infohash ≠ "") =
      (dedupLoop results [] []).1.map Prod.snd := by
    rw [hD, List.filter_append]
    have h1 : ((dedupLoop results [] []).1.map Prod.snd).filter
        (fun r => r.infohash ≠ "") = (dedupLoop results [] []).1.map Prod.snd := by
      apply List.filter_eq_self.mpr
      intro r hr
      obtain ⟨p, hp, hpr⟩ := List.mem_map.mp hr
      obtain ⟨hinf, hne⟩ := invH p hp
      simp [← hpr, hinf, hne]
    have h2 : ((dedupLoop results [] []).2.map Prod.snd).filter
        (fun r => r.infohash ≠ "") = [] := by
      apply List.filter_eq_nil_iff.mpr
      intro r hr
      obtain ⟨p, hp, hpr⟩ := List.mem_map.mp hr
      obtain ⟨hinf, -, -⟩ := invN p hp
      simp [← hpr, hinf]
    rw [h1, h2, List.append_nil]
  have hfb : (deduplicate results).filter (fun r => r.infohash = "") =
      (dedupLoop results [] []).2.map Prod.snd := by
    rw [hD, List.filter_append]
    have h1 : ((dedupLoop results [] []).1.map Prod.snd).filter
        (fun r => r.infohash = "") = [] := by
      apply List.filter_eq_nil_iff.mpr
      intro r hr
      obtain ⟨p, hp, hpr⟩ := List.mem_map.mp hr
      obtain ⟨hinf, hne⟩ := invH p hp
      simp [← hpr, hinf, hne]
    have h2 : ((dedupLoop results [] []).2.map Prod.snd).filter
        (fun r => r.infohash = "") = (dedupLoop results [] []).2.map Prod.snd := by
      apply List.filter_eq_self.mpr
      intro r hr
      obtain ⟨p, hp, hpr⟩ := List.mem_map.mp hr
      obtain ⟨hinf, -, -⟩ := invN p hp
      simp [← hpr, hinf]
    rw [h1, h2, List.nil_append]
  refine ⟨?_, ?_, ?_, ?_, ?_⟩
  · rw [hfa, hfb, hD]
  · rw [hfa, List.map_map, ← keysH]
    apply List.map_congr_left
    intro p hp
    exact (invH p hp).1
  · intro r hr
    rw [hfa] at hr
    obtain ⟨p, hp, hpr⟩ := List.mem_map.mp hr
    obtain ⟨hinf, hkne⟩ := invH p hp
    have hlookup : List.lookup p.1 (dedupLoop results [] []).1 = some p.2 :=
      lookup_of_mem_nodup _ p hndH hp
    have hkey_mem : p.1 ∈ torrentHashes results := by
      apply firstKeys_subset
      rw [← keysH]
      exact List.mem_map_of_mem Prod.fst hp
    obtain ⟨y, hy, hyh⟩ := List.mem_map.mp hkey_mem
    have hy_results : y ∈ results := List.mem_of_mem_filter hy
    obtain ⟨v, hv1, hv2, hv3, hv4⟩ :=
      dedupLoop_lookup_fresh results [] [] p.1 hkne rfl ⟨y, hy_results, hyh⟩
    have hvp : v = p.2 := by
      rw [hlookup] at hv1
      injection hv1 with h0
      exact h0.symm
    subst hvp
    rw [← hpr]
    refine ⟨hv2, ?_⟩
    intro x hx hxh
    exact hv4 x hx (by rw [hxh]; exact hinf)
  · rw [hfb, List.map_map, ← keysN]
    apply List.map_congr_left
    intro p hp
    exact (invN p hp).2.1
  · intro r hr
    rw [hfb] at hr
    obtain ⟨p, hp, hpr⟩ := List.mem_map.mp hr
    obtain ⟨hinf, hkey, hkne⟩ := invN p hp
    have hlookup : List.lookup p.1 (dedupLoop results [] []).2 = some p.2 :=
      lookup_of_mem_nodup _ p hndN hp
    have hkey_mem : p.1 ∈ nonTorrentKeys results := by
      apply firstKeys_subset
      rw [← keysN]
      exact List.mem_map_of_mem Prod.fst hp
    obtain ⟨y, hy, hyh⟩ := List.mem_map.mp hkey_mem
    have hy_results : y ∈ results := List.mem_of_mem_filter hy
    have hy_props := List.of_mem_filter hy
    have hy_inf : y.infohash = "" := by
      simpa using (of_decide_eq_true hy_props).1
    have hexists : ∃ x ∈ results,
        (x.infohash == "" && nonHashKey x == p.1) = true := by
      refine ⟨y, hy_results, ?_⟩
      simp [hy_inf, hyh]
    obtain ⟨x₀, hfind⟩ := Option.isSome_iff_exists.mp
      (List.find?_isSome.mpr hexists)
    have hlookup2 : List.lookup p.1 (dedupLoop results [] []).2 = some x₀ :=
      dedupLoop_nlookup_first results [] [] p.1 x₀ hkne rfl hfind
    have hx₀ : x₀ = p.2 := by
      rw [hlookup] at hlookup2
      injection hlookup2 with h0
      exact h0.symm
    rw [← hpr, hkey, ← hx₀]
    exact hfind

/-- Claim C1 counterexample: a result with empty infohash, empty URL and
empty title is dropped entirely, whereas the claim's keying scheme
("keyed by lowercased URL, falling back to lowercased title, keeping the
first occurrence") would keep its first occurrence. -/
theorem deduplicate_drops_keyless :
    resultBlank.infohash = "" ∧ resultBlank.magnet = "" ∧
    resultBlank.title = "" ∧ deduplicate [resultBlank] = [] := by
  refine ⟨rfl, rfl, rfl, by decide⟩

theorem deduplicate_spec_witness :
    resultB ∈ (deduplicate [resultA, resultB]).filter
      (fun r => r.infohash ≠ "") ∧
    (resultB ∈ [resultA, resultB] ∧
      ∀ x ∈ [resultA, resultB],
        x.infohash = resultB.infohash → x.seeds ≤ resultB.seeds) := by
  exact ⟨by decide, (deduplicate_spec.1 [resultA, resultB]).2.2.1 resultB (by decide)⟩

theorem coordinator_fast_return_spec_witness :
    earlyReturnCond ⟨1, 0, true⟩ ["slow"] 1 0 false = true ∧
    (collectLoop ⟨1, 0, true⟩ true 10 [⟨1, ["a"], 5⟩] ["a", "b"] 0).1
      ≠ LoopExit.fastReturn := by
  have h := coordinator_fast_return_spec ⟨1, 0, true⟩ ["slow"] 1 0 false 10
    [⟨1, ["a"], 5⟩] ["a", "b"] 0
  exact ⟨h.2.1 (by norm_num) (by norm_num) (by simp) (by norm_num) rfl
    (by decide), h.2.2⟩

/-- Claim C10 (confirmed): `SearchResult.__eq__` holds exactly when the two
infohashes are equal, and equal infohashes give equal `__hash__` values, so
any two results with empty infohashes compare equal regardless of their
other fields. -/
theorem searchResult_identity_is_infohash (a b : SearchResult) :
    (searchResultEq a b = true ↔ a.infohash = b.infohash) ∧
    (a.infohash = b.infohash → searchResultHash a = searchResultHash b) := by
  constructor
  · simp [searchResultEq]
  · intro h
    simp [searchResultHash, h]

theorem searchResult_identity_is_infohash_witness :
    searchResultEq resultR2 resultBlank = true ∧
    resultR2.title ≠ resultBlank.title := by
  refine ⟨(searchResult_identity_is_infohash resultR2 resultBlank).1.mpr (by decide), by decide⟩

/-- Claim C8 counterexample: `DownloadJob.cancel` has no status guard, so it
moves a `completed` job and even an `error` job to `cancelled`, contradicting
"cancelled and error are terminal" and "no operation moves a completed job
into them". -/
theorem jobCancel_moves_completed_to_cancelled :
    (jobCancel { status := .completed }).status = .cancelled ∧
    (jobCancel { status := .error }).status = .cancelled := by
  decide

/-- Claim C8 (corrected): `pause` moves a job from `downloading` to `paused`
and is the identity elsewhere; `resume` moves `paused` back to `downloading`
and is the identity elsewhere; but `cancel` unconditionally sets `cancelled`
(and the cancel event) from every state, including `completed` and `error`
— so those two states are terminal only for `pause`/`resume`, not for
`cancel` (the amendment). -/
theorem job_control_transitions (j : DownloadJob) :
    (j.status = .downloading → jobPause j = { j with pauseEvent := true, status := .paused }) ∧
    (j.status ≠ .downloading → jobPause j = j) ∧
    (j.status = .paused → jobResume j = { j with pauseEvent := false, status := .downloading }) ∧
    (j.status ≠ .paused → jobResume j = j) ∧
    (jobCancel j).status = .cancelled ∧ (jobCancel j).cancelEvent = true := by
  refine ⟨?_, ?_, ?_, ?_, rfl, rfl⟩ <;> intro h <;> simp [jobPause, jobResume, h]

theorem job_control_transitions_witness :
    ((⟨.downloading, false, false⟩ : DownloadJob).status = .downloading) ∧
    jobPause ⟨.downloading, false, false⟩ = ⟨.paused, true, false⟩ := by
  exact ⟨rfl, (job_control_transitions ⟨.downloading, false, false⟩).1 rfl⟩

/-- Claim C7 counterexample: the unit regex `[KMGT]I?B` never matches a bare
`B`, so `normalize_size("500 B")` is 0, not the 500 the claim states. -/
theorem normalizeSize_bare_bytes_is_zero :
    normalizeSize (.str "500 B") = some 0 ∧ (0 : ℤ) ≠ 500 := by
  exact ⟨by decide, by decide⟩

/-- Claim C7 (corrected): integers pass through unchanged; parsing is
case-insensitive; `KB/MB/GB/TB` convert at 1000^k and `KiB/MiB/GiB/TiB` at
1024^k (`1.5 GiB = 1610612736`, `1.5 GB = 1500000000`); but bare-byte
strings are not matched (`"500 B"` gives 0, the amendment), unmatched input
gives 0, and a matched numeric part with two dots raises a `ValueError`
instead of returning 0 (modelled as `none`). -/
theorem normalizeSize_spec :
    (∀ n : ℤ, normalizeSize (.int n) = some n) ∧
    normalizeSize (.str "1.5 GiB") = some 1610612736 ∧
    normalizeSize (.str "1.5 gib") = some 1610612736 ∧
    normalizeSize (.str "1.5 GB") = some 1500000000 ∧
    normalizeSize (.str "2 KiB") = some 2048 ∧
    normalizeSize (.str "2 KB") = some 2000 ∧
    normalizeSize (.str "garbage") = some 0 ∧
    normalizeSize (.str "500 B") = some 0 ∧
    normalizeSize (.str "1.2.3 GB") = none := by
  refine ⟨fun n => rfl, ?_, ?_, ?_, ?_, ?_, ?_, ?_, ?_⟩ <;> decide

/-- Claim C6 counterexample: `format_size(2048) = "2.00 KB"`, but
`normalize_size` converts `KB` at 1000, giving 2000 bytes, which formats as
`"1.95 KB"` — the round-trip is broken at n = 2048. -/
theorem size_roundtrip_fails_at_2048 :
    formatSize 2048 = "2.00 KB" ∧
    (normalizeSize (.str (formatSize 2048))).map formatSize = some "1.95 KB" := by
  exact ⟨by decide, by decide⟩

/-- Claim C6 (corrected): the format/normalize round-trip fails for general
byte counts because `format_size` divides by 1024 while labelling decimal
units that `normalize_size` converts at 1000^k; it holds at n = 0 but fails
at n = 2048 and at n = 2^30. -/
theorem size_roundtrip_only_at_zero :
    (normalizeSize (.str (formatSize 0))).map formatSize = some (formatSize 0) ∧
    (normalizeSize (.str (formatSize 2048))).map formatSize ≠ some (formatSize 2048) ∧
    (normalizeSize (.str (formatSize (2^30)))).map formatSize ≠ some (formatSize (2^30)) := by
  refine ⟨by decide, by decide, by decide⟩

/-- Claim C5 counterexample: with threshold 3, a circuit opened at
`cooldownUntil = 10` goes half-open at `now = 10` (block reason empty), but
a FAILED probe leaves `circuitOpen = false` — the half-open reset zeroed
`consecutiveFailures`, so one failure does not reach the threshold, and the
circuit does not reopen as the claim states. -/
theorem failed_probe_leaves_circuit_closed :
    (sourceBlockReason 10 healthOpenExpired).2 = "" ∧
    (recordSourceOutcome 3 120 11 (sourceBlockReason 10 healthOpenExpired).1
        false "boom" 0 1).circuitOpen = false := by
  exact ⟨by decide, by decide⟩

/-- Claim C5 (corrected): once `now ≥ cooldownUntil` the next call is
allowed as a probe (block reason empty, open flag cleared,
`consecutiveFailures` reset); a successful probe leaves the circuit closed
with zero consecutive failures; a FAILED probe re-opens the circuit only
when the failure threshold is ≤ 1 (the probe's failure count restarts at
one), in which case the fresh cooldown runs from the failure time. -/
theorem half_open_probe_spec (threshold : ℤ) (cooldownSeconds : ℚ)
    (now probeTime latency : ℚ) (h : SourceHealth) (msg : String) (attempts : ℤ)
    (hopen : h.circuitOpen = true) (hcool : h.cooldownUntil ≤ now) :
    (sourceBlockReason now h).2 = "" ∧
    (sourceBlockReason now h).1.circuitOpen = false ∧
    (sourceBlockReason now h).1.consecutiveFailures = 0 ∧
    (recordSourceOutcome threshold cooldownSeconds probeTime
        (sourceBlockReason now h).1 true "" latency attempts).circuitOpen = false ∧
    (recordSourceOutcome threshold cooldownSeconds probeTime
        (sourceBlockReason now h).1 true "" latency attempts).consecutiveFailures = 0 ∧
    ((recordSourceOutcome threshold cooldownSeconds probeTime
        (sourceBlockReason now h).1 false msg latency attempts).circuitOpen
      = decide (threshold ≤ 1)) ∧
    (threshold ≤ 1 →
      (recordSourceOutcome threshold cooldownSeconds probeTime
          (sourceBlockReason now h).1 false msg latency attempts).cooldownUntil
        = probeTime + cooldownSeconds) := by
  have hnotlt : ¬ (h.circuitOpen = true ∧ now < h.cooldownUntil) := by
    rintro ⟨-, hlt⟩; exact absurd hcool (not_le.mpr hlt)
  have hblock : sourceBlockReason now h =
      ({ h with circuitOpen := false, consecutiveFailures := 0, cooldownUntil := 0 }, "") := by
    simp [sourceBlockReason, hnotlt, hopen, hcool]
  rw [hblock]
  refine ⟨rfl, rfl, rfl, ?_, ?_, ?_, ?_⟩
  · simp [recordSourceOutcome]
  · simp [recordSourceOutcome]
  · by_cases hth : threshold ≤ 1 <;> simp [recordSourceOutcome, hth]
  · intro hth; simp [recordSourceOutcome, hth]

theorem half_open_probe_spec_witness :
    healthOpenExpired.circuitOpen = true ∧ healthOpenExpired.cooldownUntil ≤ 10 ∧
    ((sourceBlockReason 10 healthOpenExpired).2 = "" ∧
     (sourceBlockReason 10 healthOpenExpired).1.circuitOpen = false ∧
     (sourceBlockReason 10 healthOpenExpired).1.consecutiveFailures = 0 ∧
     (recordSourceOutcome 1 120 11
        (sourceBlockReason 10 healthOpenExpired).1 true "" 0 1).circuitOpen = false ∧
     (recordSourceOutcome 1 120 11
        (sourceBlockReason 10 healthOpenExpired).1 true "" 0 1).consecutiveFailures = 0 ∧
     ((recordSourceOutcome 1 120 11
        (sourceBlockReason 10 healthOpenExpired).1 false "boom" 0 1).circuitOpen
        = decide ((1:ℤ) ≤ 1)) ∧
     ((1:ℤ) ≤ 1 →
       (recordSourceOutcome 1 120 11
          (sourceBlockReason 10 healthOpenExpired).1 false "boom" 0 1).cooldownUntil
         = 11 + 120)) := by
  exact ⟨rfl, by norm_num [healthOpenExpired], half_open_probe_spec 1 120 10 11 0 healthOpenExpired "boom" 1 rfl (by norm_num [healthOpenExpired])⟩

/-- Claim C2 counterexample: aggregating the spec's two results makes the
`mega.nz` HTTPS link (quality 69 = 25 https + 20 `/file/` + 24 host bonus)
the primary link, not the magnet (quality 5 from its 5 seeds): the claim's
"primary link = the magnet (higher quality)" is false on the code. -/
theorem aggregate_primary_link_is_not_magnet :
    (aggregateResults [resultR1, resultR2]).map (fun r => r.magnet)
      = ["https://mega.nz/file/abc"] ∧
    "https://mega.nz/file/abc" ≠ resultR1.magnet ∧
    linkQuality resultR1 = 5 ∧ linkQuality resultR2 = 69 := by
  refine ⟨by decide, by decide, by decide, by decide⟩

/-- Claim C2 (corrected): aggregating `r1` (magnet, P1, 5 seeds) and `r2`
(mega.nz HTTPS link, P2, 0 seeds) yields one unified item with
`aggregated_sources = ["P1", "P2"]`, two link candidates, displayed source
`"P1 +1"` — but the primary link is the mega.nz HTTPS URL with link quality
69, the top candidate after the merge (not the magnet). -/
theorem aggregate_two_sources_spec :
    (aggregateResults [resultR1, resultR2]).map
        (fun r => (r.aggregatedSources, r.linkCandidates.length, r.magnet,
                   r.linkQuality, r.source))
      = [(["P1", "P2"], 2, "https://mega.nz/file/abc", 69, "P1 +1")] := by
  decide

/-- Claim C3 counterexample: the three deduplicated torrent results
`alpha bravo v1.0` / `bravo charlie v1.0` / `charlie delta v1.0` share the
version `1.0` with pairwise Jaccard overlaps A∼B = B∼C = 0.5 but
A∼C = 0.2; aggregating `[A, B, C]` groups A with B, while the permutation
`[C, B, A]` groups C with B, so the two unified item sets are not
permutations of each other — aggregation is not commutative. -/
theorem aggregation_not_commutative :
    deduplicate [resultA3, resultB3, resultC3] = [resultA3, resultB3, resultC3] ∧
    [resultC3, resultB3, resultA3].Perm [resultA3, resultB3, resultC3] ∧
    ¬ (aggregateResults [resultA3, resultB3, resultC3]).Perm
        (aggregateResults [resultC3, resultB3, resultA3]) := by
  refine ⟨by decide, by decide, by decide⟩

end Pluggy
